import Mathlib

/-!
Verification of the flexo_syside graph sanitizer.

This file gives a shallow embedding of the JSON-graph transformations of
`src/flexo_syside_lib/utils.py` (the sanitizer `clean_sysml_json_for_syside`,
its fixpoint loop, reference pruner, relationship validator and type
injector) and of `src/flexo_syside_lib/core.py` (`_make_root_namespace_first`,
`_wrap_elements_as_payload`, `_replace_none_with_empty`, `_remove_uri_fields`),
and proves or refutes the spec claims about them.

JSON values are represented by the inductive type `J`.  Python dicts become
ordered association lists (parsed JSON has unique keys, and all the Python
code accesses dicts through `get`/`in`, which the first-match lookup
`getField` reproduces).  Python sets of ids become `List String` used only
through membership.  The sanitizer is modelled on the parsed-value level:
`json.loads`/`json.dumps` round-trip is the identity on this domain and
`json.dumps` is injective on it, so equality/inequality of outputs at the
`J` level decides byte-level equality/inequality of the emitted strings.
-/

/-- A parsed JSON value. -/
inductive J where
  | str : String → J
  | num : Int → J
  | bool : Bool → J
  | jnull : J
  | arr : List J → J
  | obj : List (String × J) → J

/-- First-match lookup in an association list, the model of `dict.get` /
`dict[k]` on parsed (unique-key) JSON dicts. -/
def getField : List (String × J) → String → Option J
  | [], _ => none
  | (k, v) :: rest, key => if k == key then some v else getField rest key

/-- The model of the Python `key in dict` test. -/
def hasKey (fields : List (String × J)) (key : String) : Bool :=
  (getField fields key).isSome

/-- The lookup `el.get(name)` on a value that may or may not be a dict. -/
def J.getKey : J → String → Option J
  | .obj fields, key => getField fields key
  | _, _ => none

/-- Python `value == "somestring"`: true only for an equal string. -/
def optValEqStr (v : Option J) (s : String) : Bool :=
  match v with
  | some (.str t) => t == s
  | _ => false

/-- The set `STRICT_REL_TO_DROP` from utils.py. -/
def STRICT_REL_TO_DROP : List String :=
  ["Subsetting", "Specialization", "Subclassification"]

/-- The set `MEMBERSHIP_RELS` from utils.py. -/
def MEMBERSHIP_RELS : List String :=
  ["OwningMembership", "FeatureMembership", "NamespaceMembership",
   "Membership", "ParameterMembership"]

/-- The test `obj.get("@type") in STRICT_REL_TO_DROP` (a non-string tag is never in
the set of strings). -/
def typeInStrict (fields : List (String × J)) : Bool :=
  match getField fields "@type" with
  | some (.str t) => STRICT_REL_TO_DROP.contains t
  | _ => false

mutual

/-- The recursive collector inside `build_defined_ids` (utils.py): an `@id`
is recorded only when its containing dict also carries `@type`; the walk then
descends into every value. -/
def collectDefinedIds : J → List String
  | .obj fields =>
      (match getField fields "@id" with
       | some (.str s) => if hasKey fields "@type" then [s] else []
       | _ => []) ++ collectDefinedIdsObj fields
  | .arr items => collectDefinedIdsList items
  | _ => []

def collectDefinedIdsList : List J → List String
  | [] => []
  | v :: rest => collectDefinedIds v ++ collectDefinedIdsList rest

def collectDefinedIdsObj : List (String × J) → List String
  | [] => []
  | (_, v) :: rest => collectDefinedIds v ++ collectDefinedIdsObj rest

end

/-- The collector `build_defined_ids` (utils.py); the result is a set, modelled as a list
used only through membership. -/
def buildDefinedIds (els : List J) : List String :=
  collectDefinedIdsList els

/-- The locator `find_root_namespace_ids_syside` (utils.py): ids of top-level dicts with
`@type == "Namespace"`, no `owningRelationship` key and a string `@id`. -/
def findRootNamespaceIds (els : List J) : List String :=
  els.filterMap (fun el =>
    match el with
    | .obj fields =>
        if optValEqStr (getField fields "@type") "Namespace" &&
            !(hasKey fields "owningRelationship") then
          match getField fields "@id" with
          | some (.str s) => some s
          | _ => none
        else none
    | _ => none)

/-- The predicate `is_ref_dict` (utils.py): a dict with `@id` and no `@type`. -/
def isRefDict : J → Bool
  | .obj fields => hasKey fields "@id" && !(hasKey fields "@type")
  | _ => false

/-- The predicate `has_uri` (utils.py / core.py). -/
def hasUri : J → Bool
  | .obj fields => hasKey fields "@uri"
  | _ => false

/-- The helper `ref_defined` inside `is_relationship_and_incomplete` (utils.py): the
value is a dict whose `@id` is a string in the defined-id set. -/
def refDefined (v : Option J) (definedIds : List String) : Bool :=
  match v with
  | some (.obj fields) =>
      match getField fields "@id" with
      | some (.str s) => definedIds.contains s
      | _ => false
  | _ => false

/-- The helper `has_defined_ref` inside `is_relationship_and_incomplete` (utils.py): a
single resolvable reference, or a nonempty list containing one. -/
def hasDefinedRef (el : J) (name : String) (definedIds : List String) : Bool :=
  match el.getKey name with
  | some (.arr (i :: rest)) => (i :: rest).any (fun x => refDefined (some x) definedIds)
  | v => refDefined v definedIds

/-- The validator `is_relationship_and_incomplete` (utils.py), branch for branch.  The
membership kinds and every unlisted kind fall through to `false` (the
membership branch in the source only prints diagnostics). -/
def isRelationshipAndIncomplete (el : J) (definedIds : List String) : Bool :=
  match el.getKey "@type" with
  | some (.str t) =>
      if t == "Subsetting" then
        !((refDefined (el.getKey "specific") definedIds &&
           refDefined (el.getKey "general") definedIds) ||
          (refDefined (el.getKey "subsettingFeature") definedIds &&
           refDefined (el.getKey "subsettedFeature") definedIds))
      else if t == "Specialization" then
        !(refDefined (el.getKey "specific") definedIds &&
          refDefined (el.getKey "general") definedIds)
      else if t == "FeatureTyping" then
        !(refDefined (el.getKey "typedFeature") definedIds &&
          (refDefined (el.getKey "type") definedIds ||
           refDefined (el.getKey "general") definedIds))
      else if t == "FeatureValue" then
        !(refDefined (el.getKey "featureWithValue") definedIds &&
          refDefined (el.getKey "value") definedIds)
      else if t == "Subclassification" then
        !(refDefined (el.getKey "specific") definedIds &&
          refDefined (el.getKey "general") definedIds)
      else if t == "TypeFeaturing" then
        !(refDefined (el.getKey "typedFeature") definedIds &&
          (refDefined (el.getKey "type") definedIds ||
           refDefined (el.getKey "general") definedIds))
      else false
  | _ => false

mutual

/-- The check `has_all_refs_defined` (utils.py): every thin reference anywhere in the
subtree points into the defined-id set. -/
def hasAllRefsDefined (v : J) (definedIds : List String) : Bool :=
  match v with
  | .obj fields =>
      (if hasKey fields "@id" && !(hasKey fields "@type") then
         match getField fields "@id" with
         | some (.str s) => definedIds.contains s
         | _ => false
       else true) && hasAllRefsDefinedObj fields definedIds

  | .arr items => hasAllRefsDefinedList items definedIds
  | _ => true

def hasAllRefsDefinedList (items : List J) (definedIds : List String) : Bool :=
  match items with
  | [] => true
  | v :: rest => hasAllRefsDefined v definedIds && hasAllRefsDefinedList rest definedIds

def hasAllRefsDefinedObj (fields : List (String × J)) (definedIds : List String) : Bool :=
  match fields with
  | [] => true
  | (_, v) :: rest => hasAllRefsDefined v definedIds && hasAllRefsDefinedObj rest definedIds

end

mutual

/-- The pruner `drop_thin_dangling_refs` (utils.py).  Returns `none` for the `DROP`
sentinel; the boolean is the `ref_drops` cell, true when any drop happened
inside the subtree (every `DROP` return in the source sets it first). -/
def dropThinF (preserveRefsWithUri : Bool) (definedIds : List String) : J → Option J × Bool
  | .obj fields =>
      if optValEqStr (getField fields "@type") "Empty" then (none, true)
      else if typeInStrict fields &&
          (isRelationshipAndIncomplete (.obj fields) definedIds ||
           !(hasAllRefsDefined (.obj fields) definedIds)) then (none, true)
      else if isRefDict (.obj fields) then
        (if (match getField fields "@id" with
             | some (.str s) => definedIds.contains s
             | _ => false) then (some (.obj fields), false)
         else if preserveRefsWithUri && hasUri (.obj fields) then (some (.obj fields), false)
         else (none, true))
      else
        let cleaned := dropThinFObj preserveRefsWithUri definedIds fields
        (some (.obj cleaned.1), cleaned.2)
  | .arr items =>
      let cleaned := dropThinFList preserveRefsWithUri definedIds items
      (some (.arr cleaned.1), cleaned.2)
  | v => (some v, false)

def dropThinFList (preserveRefsWithUri : Bool) (definedIds : List String) :
    List J → List J × Bool
  | [] => ([], false)
  | item :: rest =>
      let ci := dropThinF preserveRefsWithUri definedIds item
      let crest := dropThinFList preserveRefsWithUri definedIds rest
      match ci.1 with
      | none => (crest.1, true)
      | some v => (v :: crest.1, ci.2 || crest.2)

def dropThinFObj (preserveRefsWithUri : Bool) (definedIds : List String) :
    List (String × J) → List (String × J) × Bool
  | [] => ([], false)
  | (k, v) :: rest =>
      let cv := dropThinF preserveRefsWithUri definedIds v
      let crest := dropThinFObj preserveRefsWithUri definedIds rest
      match cv.1 with
      | none => (crest.1, true)
      | some w => ((k, w) :: crest.1, cv.2 || crest.2)

end

/-- The top-level filter of one fixpoint iteration (utils.py, the `kept`
loop): protected roots are kept, incomplete relationships are dropped,
strict kinds with any dangling reference are dropped, everything else
(memberships included) is kept.  The boolean reports whether anything was
dropped. -/
def gatePass (definedIds protectedIds : List String) : List J → List J × Bool
  | [] => ([], false)
  | el :: rest =>
      let tail := gatePass definedIds protectedIds rest
      match el with
      | .obj fields =>
          if (match getField fields "@id" with
              | some (.str s) => protectedIds.contains s
              | _ => false) then (el :: tail.1, tail.2)
          else if isRelationshipAndIncomplete el definedIds then (tail.1, true)
          else if typeInStrict fields && !(hasAllRefsDefined el definedIds) then (tail.1, true)
          else (el :: tail.1, tail.2)
      | _ => (el :: tail.1, tail.2)

/-- One iteration of the fixpoint loop (utils.py): recompute the defined ids
and protected roots, prune, recompute the defined ids, run the top-level
filter.  The boolean is the `changed` flag of the iteration. -/
def onePass (preserveRefsWithUri : Bool) (els : List J) : List J × Bool :=
  let definedIds := buildDefinedIds els
  let protectedIds := findRootNamespaceIds els
  let pruned := els.map (dropThinF preserveRefsWithUri definedIds)
  let newElements := pruned.filterMap (fun p => p.1)
  let changedPrune := pruned.any (fun p => p.1.isNone) || pruned.any (fun p => p.2)
  let definedIds2 := buildDefinedIds newElements
  let gated := gatePass definedIds2 protectedIds newElements
  (gated.1, changedPrune || gated.2)

/-- The iteration cap `MAX_ITERS` from utils.py. -/
def MAX_ITERS : Nat := 12

/-- The `while changed and iters < MAX_ITERS` driver (utils.py).  Returns the
final elements, the `changed` flag at loop exit (true exactly when the cap
was hit before stabilising) and the number of iterations executed. -/
def cleanLoop (preserveRefsWithUri : Bool) : Nat → List J → List J × Bool × Nat
  | 0, els => (els, true, 0)
  | fuel + 1, els =>
      let step := onePass preserveRefsWithUri els
      if step.2 then
        let rest := cleanLoop preserveRefsWithUri fuel step.1
        (rest.1, rest.2.1, rest.2.2 + 1)
      else (step.1, false, 1)

/-- The list branch of `_first_id` inside `_inject_inferred_types`
(utils.py): the `@id` of the first dict in the list that carries one. -/
def firstIdInList : List J → Option J
  | [] => none
  | .obj fields :: rest =>
      match getField fields "@id" with
      | some v => some v
      | none => firstIdInList rest
  | _ :: rest => firstIdInList rest

/-- The helper `_first_id` inside `_inject_inferred_types` (utils.py): the `@id` of a
dict, or of the first dict carrying `@id` inside a list. -/
def firstId : Option J → Option J
  | some (.obj fields) => getField fields "@id"
  | some (.arr items) => firstIdInList items
  | _ => none

/-- Python truthiness of a JSON value (`if f_id and owner_id`, `a or b`). -/
def jTruthy : J → Bool
  | .str s => !(s == "")
  | .num n => !(n == 0)
  | .bool b => b
  | .jnull => false
  | .arr items => !items.isEmpty
  | .obj fields => !fields.isEmpty

/-- Truthiness lifted to an optional value (`None` is falsy). -/
def optTruthy : Option J → Bool
  | some v => jTruthy v
  | none => false

/-- Python `a or b` on optional values. -/
def orTruthy (a b : Option J) : Option J :=
  if optTruthy a then a else b

mutual

/-- Structural equality of JSON values, the model of Python `==` used for
dict keys and set membership in `_inject_inferred_types`.  (Python `==`
additionally identifies booleans with numbers and compares dicts without
order; the ids this code keys on are strings, where the notions agree.) -/
def jBeq : J → J → Bool
  | .str a, .str b => a == b
  | .num a, .num b => a == b
  | .bool a, .bool b => a == b
  | .jnull, .jnull => true
  | .arr a, .arr b => jBeqList a b
  | .obj a, .obj b => jBeqObj a b
  | _, _ => false

def jBeqList : List J → List J → Bool
  | [], [] => true
  | a :: as, b :: bs => jBeq a b && jBeqList as bs
  | _, _ => false

def jBeqObj : List (String × J) → List (String × J) → Bool
  | [], [] => true
  | (k1, v1) :: as, (k2, v2) :: bs => k1 == k2 && jBeq v1 v2 && jBeqObj as bs
  | _, _ => false

end

/-- Lookup in a Python dict keyed by JSON values. -/
def jmapGet (m : List (J × J)) (k : J) : Option J :=
  match m with
  | [] => none
  | (k2, v) :: rest => if jBeq k2 k then some v else jmapGet rest k

/-- Assignment `m[k] = v` on a Python dict keyed by JSON values: replace in
place if the key exists, else append. -/
def jmapInsert (m : List (J × J)) (k v : J) : List (J × J) :=
  match m with
  | [] => [(k, v)]
  | (k2, v2) :: rest => if jBeq k2 k then (k2, v) :: rest else (k2, v2) :: jmapInsert rest k v

/-- Step 0 of `_inject_inferred_types` (utils.py): the feature-to-owner map
harvested from membership elements. -/
def buildFeatureOwner (els : List J) : List (J × J) :=
  els.foldl (fun acc el =>
    match el with
    | .obj fields =>
        if (match getField fields "@type" with
            | some (.str t) => MEMBERSHIP_RELS.contains t
            | _ => false) then
          let fId := orTruthy (firstId (getField fields "memberElement"))
                              (firstId (getField fields "feature"))
          let ownerId := orTruthy (orTruthy (firstId (getField fields "featuringType"))
                                            (firstId (getField fields "owningType")))
                                  (firstId (getField fields "owningNamespace"))
          if optTruthy fId && optTruthy ownerId then
            match fId, ownerId with
            | some fv, some ov => jmapInsert acc fv ov
            | _, _ => acc
          else acc
        else acc
    | _ => acc) []

/-- Step 1 of `_inject_inferred_types` (utils.py): the feature-to-type map
harvested from FeatureTyping/TypeFeaturing elements. -/
def buildFeatToType (els : List J) : List (J × J) :=
  els.foldl (fun acc el =>
    match el with
    | .obj fields =>
        if optValEqStr (getField fields "@type") "FeatureTyping" ||
            optValEqStr (getField fields "@type") "TypeFeaturing" then
          let fId := orTruthy (firstId (getField fields "typedFeature"))
                              (firstId (getField fields "feature"))
          let tyId := orTruthy (orTruthy (firstId (getField fields "type"))
                                          (firstId (getField fields "featuringType")))
                               (firstId (getField fields "general"))
          if optTruthy fId && optTruthy tyId then
            match fId, tyId with
            | some fv, some tv => jmapInsert acc fv tv
            | _, _ => acc
          else acc
        else acc
    | _ => acc) []

/-- A full definition: a dict with both `@id` and `@type` (step 2 of
`_inject_inferred_types` indexes exactly these). -/
def isFullDef : J → Bool
  | .obj fields => hasKey fields "@id" && hasKey fields "@type"
  | _ => false

/-- The raw `@id` value of a dict. -/
def idOfRaw : J → Option J
  | .obj fields => getField fields "@id"
  | _ => none

/-- True when a later element of the list is a full definition with the same
`@id`; the Python index `id_to_el` is last-wins, so only the last occurrence
is mutated by the injection passes. -/
def laterHasSameId (idv : J) : List J → Bool
  | [] => false
  | el :: rest =>
      (isFullDef el && (match idOfRaw el with
                        | some k => jBeq k idv
                        | none => false)) || laterHasSameId idv rest

/-- The set `part_def_ids` of `_inject_inferred_types`: ids of the indexed (last
occurrence) full definitions whose `@type` is `PartDefinition`. -/
def partDefIds : List J → List J
  | [] => []
  | el :: rest =>
      match el with
      | .obj fields =>
          (match getField fields "@id" with
           | some idv =>
               if hasKey fields "@type" && !(laterHasSameId idv rest) &&
                   optValEqStr (getField fields "@type") "PartDefinition" then
                 idv :: partDefIds rest
               else partDefIds rest
           | none => partDefIds rest)
      | _ => partDefIds rest

/-- Step 3 of `_inject_inferred_types`: inject `type = {@id: mapped}` into a
full definition that lacks a `type` field (Python dict assignment appends
the new key at the end). -/
def injectExplicitType (featToType : List (J × J)) (el : J) : J :=
  match el with
  | .obj fields =>
      (match getField fields "@id" with
       | some idv =>
           match jmapGet featToType idv with
           | some tyId =>
               if hasKey fields "type" then J.obj fields
               else J.obj (fields ++ [("type", J.obj [("@id", tyId)])])
           | none => J.obj fields
       | none => J.obj fields)
  | other => other

/-- Step 4 of `_inject_inferred_types`: self-type a feature named
`children` that still lacks `type`, using the membership-derived owner or
the owning fields on the feature itself, when that owner is a `PartDefinition`. -/
def injectChildrenSelfType (featureOwner : List (J × J)) (partIds : List J) (el : J) : J :=
  match el with
  | .obj fields =>
      if hasKey fields "type" then J.obj fields
      else if !(optValEqStr (getField fields "name") "children") then J.obj fields
      else
        let ownerId :=
          orTruthy (orTruthy (orTruthy
            (match getField fields "@id" with
             | some idv => jmapGet featureOwner idv
             | none => none)
            (firstId (getField fields "owningType")))
            (firstId (getField fields "owningNamespace")))
            (firstId (getField fields "featuringType"))
        match ownerId with
        | some ov =>
            if partIds.any (fun p => jBeq p ov) then
              J.obj (fields ++ [("type", J.obj [("@id", ov)])])
            else J.obj fields
        | none => J.obj fields
  | other => other

/-- The element-wise effect of the two injection passes: only the indexed
(last-occurrence) full definitions are mutated, first by the explicit-typing
rule, then by the children-self-typing rule. -/
def injectWalk (featToType featureOwner : List (J × J)) (partIds : List J) :
    List J → List J
  | [] => []
  | el :: rest =>
      (if isFullDef el && !(match idOfRaw el with
                            | some idv => laterHasSameId idv rest
                            | none => false) then
         injectChildrenSelfType featureOwner partIds (injectExplicitType featToType el)
       else el) :: injectWalk featToType featureOwner partIds rest

/-- The pass `_inject_inferred_types` (utils.py). -/
def injectInferredTypes (els : List J) : List J :=
  injectWalk (buildFeatToType els) (buildFeatureOwner els) (partDefIds els) els

/-- The whole element-level sanitizer of `clean_sysml_json_for_syside`
(utils.py): the fixpoint loop followed by the type-injection pass. -/
def cleanSysmlElements (preserveRefsWithUri : Bool) (els : List J) : List J :=
  injectInferredTypes (cleanLoop preserveRefsWithUri MAX_ITERS els).1

/-- Replace the value stored at a key, appending when absent (Python dict
assignment `out["elements"] = elements`). -/
def setField : List (String × J) → String → J → List (String × J)
  | [], key, v => [(key, v)]
  | (k, old) :: rest, key, v =>
      if k == key then (k, v) :: rest else (k, old) :: setField rest key v

/-- The sanitizer `clean_sysml_json_for_syside` (utils.py) on the parsed value: top-level
normalisation (bare list, `elements` envelope, or single dict), the
sanitizer, and the output restoration. -/
def cleanSysmlValue (preserveRefsWithUri : Bool) (data : J) : J :=
  match data with
  | .arr els => .arr (cleanSysmlElements preserveRefsWithUri els)
  | .obj fields =>
      match getField fields "elements" with
      | some (.arr els) =>
          J.obj (setField fields "elements"
            (J.arr (cleanSysmlElements preserveRefsWithUri els)))
      | _ =>
          match cleanSysmlElements preserveRefsWithUri [J.obj fields] with
          | [single] => single
          | out => J.arr out
  | other => other

/-- The distinct ways `_make_root_namespace_first` (core.py) can fail:
`element["@type"]` raises `KeyError` on a dict without the key and
`TypeError` on a non-dict; the `assert found_root_namespace is None` raises
on a second candidate; `ValueError("No root namespace found")` is the
no-root failure. -/
inductive RootError where
  | keyError
  | typeError
  | assertionError
  | noRootNamespace
  deriving DecidableEq

/-- The candidate test of `_make_root_namespace_first` (core.py):
`element["@type"] == "Namespace" and "owningRelationship" not in element`. -/
def isRootNamespaceCandidate : J → Bool
  | .obj fields =>
      optValEqStr (getField fields "@type") "Namespace" &&
        !(hasKey fields "owningRelationship")
  | _ => false

/-- The scan loop of `_make_root_namespace_first` (core.py): walk the
elements, recording the index of the candidate, failing on a missing
`@type`, a non-dict record, or a second candidate. -/
def findRootIdx : List J → Option Nat → Nat → Except RootError (Option Nat)
  | [], found, _ => .ok found
  | el :: rest, found, i =>
      match el with
      | .obj fields =>
          match getField fields "@type" with
          | none => .error .keyError
          | some tv =>
              if optValEqStr (some tv) "Namespace" && !(hasKey fields "owningRelationship") then
                match found with
                | some _ => .error .assertionError
                | none => findRootIdx rest (some i) (i + 1)
              else findRootIdx rest found (i + 1)
      | _ => .error .typeError

/-- The move `obj.insert(0, obj.pop(i))` (core.py). -/
def moveToFront (els : List J) (i : Nat) : List J :=
  match els[i]? with
  | some el => el :: els.eraseIdx i
  | none => els

/-- The reordering `_make_root_namespace_first` (core.py) on the parsed element array. -/
def makeRootNamespaceFirst (els : List J) : Except RootError (List J) :=
  match findRootIdx els none 0 with
  | .error e => .error e
  | .ok none => .error .noRootNamespace
  | .ok (some i) => .ok (moveToFront els i)

/-- Ordered comparison of strings by code points; on ISO-8601 `Z` instants
this coincides with temporal order. -/
def charListLtB : List Char → List Char → Bool
  | [], [] => false
  | [], _ :: _ => true
  | _ :: _, [] => false
  | a :: as, b :: bs =>
      if a.toNat < b.toNat then true
      else if b.toNat < a.toNat then false
      else charListLtB as bs

/-- Lexicographic order on strings (kernel-computable). -/
def strLtB (a b : String) : Bool :=
  charListLtB a.data b.data

/-- Modelled from the spec: the timestamp-like field the tie-break variant
reads.  The variant itself is not in src/ (only its tests are); the tests
embed the timestamps in `qualifiedName`. -/
def nsTimestampKey (el : J) : Option String :=
  match el.getKey "qualifiedName" with
  | some (.str s) => some s
  | _ => none

/-- Modelled from the spec: `b` is preferred over `a` in the tie-break — a
candidate with no timestamp field is preferred over one with a field, and
among timestamped candidates the temporally (lexicographically) latest
ISO-8601 instant wins; ties keep the earlier candidate. -/
def tsPrefer (a b : Option String) : Bool :=
  match a, b with
  | some x, some y => strLtB x y
  | some _, none => true
  | none, _ => false

/-- Modelled from the spec: the timestamp-tie-break variant of the
root-namespace reordering (spec section 4.2 and scenario C).  The variant is
code of this repository absent from src/ — `_make_root_namespace_first`
in core.py requires a unique candidate, while the tests of the repository
exercise a tie-break by latest embedded timestamp.  Among root-namespace
candidates, select the preferred one deterministically and move it to
index 0; fail with the distinct no-root error when there is no candidate. -/
def makeRootNamespaceFirstTs (els : List J) : Except RootError (List J) :=
  match els.enum.filter (fun p => isRootNamespaceCandidate p.2) with
  | [] => .error .noRootNamespace
  | c :: cs =>
      let best := cs.foldl
        (fun acc p => if tsPrefer (nsTimestampKey acc.2) (nsTimestampKey p.2) then p else acc) c
      .ok (moveToFront els best.1)

mutual

/-- The transform `_replace_none_with_empty` (core.py): `None` becomes the empty string
when it is the value of a dict field; `None` elsewhere (in particular as a
bare list item) is returned unchanged by the recursion. -/
def replaceNoneWithEmpty : J → J
  | .obj fields => .obj (replaceNoneObj fields)
  | .arr items => .arr (replaceNoneList items)
  | v => v

def replaceNoneList : List J → List J
  | [] => []
  | v :: rest => replaceNoneWithEmpty v :: replaceNoneList rest

def replaceNoneObj : List (String × J) → List (String × J)
  | [] => []
  | (k, v) :: rest =>
      (k, match v with
          | .jnull => .str ""
          | w => replaceNoneWithEmpty w) :: replaceNoneObj rest

end

/-- The dict-comprehension step of `_replace_none_with_empty`: the value
becomes the empty string when it is `None`, else it is recursed into. -/
def replaceNoneField (v : J) : J :=
  match v with
  | .jnull => .str ""
  | w => replaceNoneWithEmpty w

mutual

/-- The transform `_remove_uri_fields` (core.py): recursively delete every `@uri` field. -/
def removeUriFields : J → J
  | .obj fields => .obj (removeUriObj fields)
  | .arr items => .arr (removeUriList items)
  | v => v

def removeUriList : List J → List J
  | [] => []
  | v :: rest => removeUriFields v :: removeUriList rest

def removeUriObj : List (String × J) → List (String × J)
  | [] => []
  | (k, v) :: rest =>
      if k == "@uri" then removeUriObj rest
      else (k, removeUriFields v) :: removeUriObj rest

end

/-- The per-element body of `_wrap_elements_as_payload` (core.py): normalise
nulls, strip `@uri` fields, and pair the payload with its identity.  For a
non-dict element the Python test `"@id" in clean_element` either raises or performs
container membership; the claims only concern dict elements, for which the
identity is as in the source. -/
def wrapOne (element : J) : J :=
  let elementNoNone := replaceNoneWithEmpty element
  let cleanElement := removeUriFields elementNoNone
  let identity : J :=
    match cleanElement with
    | .obj fields =>
        if hasKey fields "@id" then
          J.obj [("@id", (getField fields "@id").getD J.jnull)]
        else J.obj []
    | _ => J.obj []
  J.obj [("payload", cleanElement), ("identity", identity)]

/-- The transform `_wrap_elements_as_payload` (core.py). -/
def wrapElementsAsPayload (data : List J) : List J :=
  data.map wrapOne

mutual

/-- Statement-side checker: some `null` scalar occurs anywhere in the
value. -/
def hasNullScalar : J → Bool
  | .jnull => true
  | .obj fields => hasNullScalarObj fields
  | .arr items => hasNullScalarList items
  | _ => false

def hasNullScalarList : List J → Bool
  | [] => false
  | v :: rest => hasNullScalar v || hasNullScalarList rest

def hasNullScalarObj : List (String × J) → Bool
  | [] => false
  | (_, v) :: rest => hasNullScalar v || hasNullScalarObj rest

end

mutual

/-- Statement-side checker: some `@uri` key occurs anywhere in the value. -/
def hasUriKey : J → Bool
  | .obj fields => hasUriKeyObj fields
  | .arr items => hasUriKeyList items
  | _ => false

def hasUriKeyList : List J → Bool
  | [] => false
  | v :: rest => hasUriKey v || hasUriKeyList rest

def hasUriKeyObj : List (String × J) → Bool
  | [] => false
  | (k, v) :: rest => k == "@uri" || hasUriKey v || hasUriKeyObj rest

end

/-- Statement-side checker: the value is the scalar null itself. -/
def isNullScalar : J → Bool
  | .jnull => true
  | _ => false

mutual

/-- Statement-side checker: some dict field anywhere holds the scalar
`null` directly as its value. -/
def hasNullFieldValue : J → Bool
  | .obj fields => hasNullFieldValueObj fields
  | .arr items => hasNullFieldValueList items
  | _ => false

def hasNullFieldValueList : List J → Bool
  | [] => false
  | v :: rest => hasNullFieldValue v || hasNullFieldValueList rest

def hasNullFieldValueObj : List (String × J) → Bool
  | [] => false
  | (_, v) :: rest => isNullScalar v || hasNullFieldValue v || hasNullFieldValueObj rest

end

/-- An element of a strict heritage kind (`@type` in `STRICT_REL_TO_DROP`). -/
def isStrictHeritage (el : J) : Bool :=
  match el.getKey "@type" with
  | some (.str t) => STRICT_REL_TO_DROP.contains t
  | _ => false

/-- The completeness notion claimed for output strict elements, built on the
the source function `has_defined_ref`: for Subsetting, (specific and general) or
(subsettingFeature and subsettedFeature); for Specialization and
Subclassification, specific and general; an endpoint may be a thin
reference or a list of thin references. -/
def strictEndpointsResolve (el : J) (definedIds : List String) : Bool :=
  match el.getKey "@type" with
  | some (.str t) =>
      if t == "Subsetting" then
        (hasDefinedRef el "specific" definedIds && hasDefinedRef el "general" definedIds) ||
        (hasDefinedRef el "subsettingFeature" definedIds &&
         hasDefinedRef el "subsettedFeature" definedIds)
      else if t == "Specialization" || t == "Subclassification" then
        hasDefinedRef el "specific" definedIds && hasDefinedRef el "general" definedIds
      else true
  | _ => true

/-- A thin reference to an id. -/
def mkRef (s : String) : J := J.obj [("@id", J.str s)]

/-- A Specialization element with thin `specific`/`general` endpoints. -/
def mkSpec (name target gen : String) : J :=
  J.obj [("@id", J.str name), ("@type", J.str "Specialization"),
         ("specific", mkRef target), ("general", mkRef gen)]

/-- The k-th name of the chain input. -/
def specName (k : Nat) : String := "s" ++ toString k

/-- A dependency chain of 25 Specializations (s1 specialises s2 specialises
... s25, whose `specific` endpoint is undefined) next to one well-formed
element `g`.  Each fixpoint iteration removes only the last two links, so
the 12-iteration cap stops the cleanup while `s1` still points at the
just-deleted `s2`. -/
def chainInput : List J :=
  (List.range 25).map (fun k =>
    mkSpec (specName (k + 1)) (if k + 1 == 25 then "missing" else specName (k + 2)) "g")
  ++ [J.obj [("@id", J.str "g"), ("@type", J.str "Element")]]

/-- A root-namespace candidate stamped 2020 (the tests place the embedded
timestamp in `qualifiedName`). -/
def nsCand2020 : J :=
  J.obj [("@id", J.str "ns2020"), ("@type", J.str "Namespace"),
         ("qualifiedName", J.str "2020-01-01T00:00:00Z")]

/-- A root-namespace candidate stamped 2021. -/
def nsCand2021 : J :=
  J.obj [("@id", J.str "ns2021"), ("@type", J.str "Namespace"),
         ("qualifiedName", J.str "2021-01-01T00:00:00Z")]

/-- A thin external reference: `@id` unresolvable, `@uri` present, no
`@type`.  The sanitizer keeps it at top level when external references are
preserved. -/
def thinUriRef : J := J.obj [("@id", J.str "x"), ("@uri", J.str "u")]

/-- A plain root-namespace candidate. -/
def nsPlain : J := J.obj [("@id", J.str "ns1"), ("@type", J.str "Namespace")]

/-- A thin reference record without `@type`. -/
def thinX : J := J.obj [("@id", J.str "x")]

/-- A membership element with an unresolvable endpoint. -/
def memEl : J :=
  J.obj [("@id", J.str "m1"), ("@type", J.str "OwningMembership"),
         ("memberElement", mkRef "nonexistent")]

/-- A single untyped record whose kind tag is absent only inside a list. -/
def nullInListElement : J := J.obj [("props", J.arr [J.jnull])]

/-- An element used for converged-run witnesses. -/
def wA : J := J.obj [("@id", J.str "a"), ("@type", J.str "Element")]

/-- A second element used for converged-run witnesses. -/
def wB : J := J.obj [("@id", J.str "b"), ("@type", J.str "Element")]

/-- A complete Specialization between `wA` and `wB`. -/
def wS : J :=
  J.obj [("@id", J.str "s"), ("@type", J.str "Specialization"),
         ("specific", mkRef "a"), ("general", mkRef "b")]

/-- An element carrying only a kind tag, the no-root input of the spec. -/
def elementOnly : J := J.obj [("@type", J.str "Element")]

/-- A first-match lookup that succeeds is unchanged by appending fields. -/
theorem getField_append_of_isSome (fs more : List (String × J)) (k : String)
    (h : (getField fs k).isSome) : getField (fs ++ more) k = getField fs k := by
  induction fs with
  | nil => simp [getField] at h
  | cons hd tl ih =>
      obtain ⟨k1, v1⟩ := hd
      by_cases hk : (k1 == k) = true
      · simp [getField, hk]
      · simp only [getField, hk, List.cons_append, Bool.false_eq_true, if_false] at h ⊢
        exact ih h

/-- Appending a single field under a different key does not change lookup. -/
theorem getField_append_single_ne (fs : List (String × J)) (k k2 : String) (v : J)
    (hne : (k == k2) = false) : getField (fs ++ [(k2, v)]) k = getField fs k := by
  have hne2 : (k2 == k) = false := by
    cases hbe : k2 == k
    · rfl
    · rw [beq_iff_eq] at hbe
      rw [beq_eq_false_iff_ne] at hne
      exact absurd hbe.symm hne
  induction fs with
  | nil => simp [getField, hne2]
  | cons hd tl ih =>
      obtain ⟨k1, v1⟩ := hd
      by_cases hk : (k1 == k) = true
      · simp [getField, hk]
      · simp [getField, hk, ih]

mutual

/-- When the pruner reports no drop inside a value, it returns the value
unchanged. -/
theorem dropThinF_flag_false (p : Bool) (d : List String) :
    ∀ v : J, (dropThinF p d v).2 = false → (dropThinF p d v).1 = some v
  | .str s => by intro h; simp [dropThinF]
  | .num n => by intro h; simp [dropThinF]
  | .bool b => by intro h; simp [dropThinF]
  | .jnull => by intro h; simp [dropThinF]
  | .arr items => by
      intro h
      simp only [dropThinF] at h ⊢
      rw [dropThinFList_flag_false p d items h]
  | .obj fields => by
      intro h
      simp only [dropThinF] at h ⊢
      by_cases h1 : optValEqStr (getField fields "@type") "Empty" = true
      · rw [if_pos h1] at h; simp at h
      · rw [if_neg h1] at h ⊢
        by_cases h2 : (typeInStrict fields &&
            (isRelationshipAndIncomplete (J.obj fields) d ||
             !hasAllRefsDefined (J.obj fields) d)) = true
        · rw [if_pos h2] at h; simp at h
        · rw [if_neg h2] at h ⊢
          by_cases h3 : isRefDict (J.obj fields) = true
          · rw [if_pos h3] at h ⊢
            by_cases h4 : (match getField fields "@id" with
                           | some (J.str s) => d.contains s
                           | _ => false) = true
            · rw [if_pos h4]
            · rw [if_neg h4] at h ⊢
              by_cases h5 : (p && hasUri (J.obj fields)) = true
              · rw [if_pos h5]
              · rw [if_neg h5] at h; simp at h
          · rw [if_neg h3] at h ⊢
            rw [dropThinFObj_flag_false p d fields h]

theorem dropThinFList_flag_false (p : Bool) (d : List String) :
    ∀ items : List J, (dropThinFList p d items).2 = false →
      (dropThinFList p d items).1 = items
  | [] => by intro h; simp [dropThinFList]
  | item :: rest => by
      intro h
      simp only [dropThinFList] at h ⊢
      cases hc : (dropThinF p d item).1 with
      | none => simp [hc] at h
      | some v =>
          simp only [hc] at h ⊢
          simp only [Bool.or_eq_false_iff] at h
          have hv : some v = some item := hc ▸ dropThinF_flag_false p d item h.1
          rw [dropThinFList_flag_false p d rest h.2]
          simpa using hv

theorem dropThinFObj_flag_false (p : Bool) (d : List String) :
    ∀ fields : List (String × J), (dropThinFObj p d fields).2 = false →
      (dropThinFObj p d fields).1 = fields
  | [] => by intro h; simp [dropThinFObj]
  | (k, v) :: rest => by
      intro h
      simp only [dropThinFObj] at h ⊢
      cases hc : (dropThinF p d v).1 with
      | none => simp [hc] at h
      | some w =>
          simp only [hc] at h ⊢
          simp only [Bool.or_eq_false_iff] at h
          have hv : some w = some v := hc ▸ dropThinF_flag_false p d v h.1
          rw [dropThinFObj_flag_false p d rest h.2]
          simpa using hv

end

/-- When the prune pass reports no change, it rebuilds the element list
unchanged. -/
theorem pruneMap_noChange_identity (p : Bool) (d : List String) :
    ∀ els : List J,
      ((els.map (dropThinF p d)).any (fun q => q.2)) = false →
      ((els.map (dropThinF p d)).filterMap (fun q => q.1)) = els := by
  intro els
  induction els with
  | nil => intro h; simp
  | cons el rest ih =>
      intro h
      simp only [List.map_cons, List.any_cons, Bool.or_eq_false_iff] at h
      have h1 := dropThinF_flag_false p d el h.1
      simp only [List.map_cons, List.filterMap_cons, h1]
      rw [ih h.2]

/-- When the top-level filter reports no change, it kept every element. -/
theorem gatePass_noChange_identity (d prot : List String) :
    ∀ l : List J, (gatePass d prot l).2 = false → (gatePass d prot l).1 = l := by
  intro l
  induction l with
  | nil => intro h; simp [gatePass]
  | cons el rest ih =>
      cases el with
      | obj fields =>
          intro h
          simp only [gatePass] at h ⊢
          by_cases hprot : (match getField fields "@id" with
                            | some (J.str s) => prot.contains s
                            | _ => false) = true
          · rw [if_pos hprot] at h ⊢
            rw [ih h]
          · rw [if_neg hprot] at h ⊢
            by_cases hinc : isRelationshipAndIncomplete (J.obj fields) d = true
            · rw [if_pos hinc] at h; simp at h
            · rw [if_neg hinc] at h ⊢
              by_cases hstr : (typeInStrict fields &&
                  !hasAllRefsDefined (J.obj fields) d) = true
              · rw [if_pos hstr] at h; simp at h
              · rw [if_neg hstr] at h ⊢
                rw [ih h]
      | str s => intro h; simp only [gatePass] at h ⊢; rw [ih h]
      | num n => intro h; simp only [gatePass] at h ⊢; rw [ih h]
      | bool b => intro h; simp only [gatePass] at h ⊢; rw [ih h]
      | jnull => intro h; simp only [gatePass] at h ⊢; rw [ih h]
      | arr items => intro h; simp only [gatePass] at h ⊢; rw [ih h]

/-- When the top-level filter reports no change, every dict in its input was
either protected or passed both drop tests. -/
theorem gatePass_noChange_facts (d prot : List String) :
    ∀ l : List J, (gatePass d prot l).2 = false →
      ∀ fields, J.obj fields ∈ l →
        ((match getField fields "@id" with
          | some (J.str s) => prot.contains s
          | _ => false) = true) ∨
        (isRelationshipAndIncomplete (J.obj fields) d = false ∧
         (typeInStrict fields && !hasAllRefsDefined (J.obj fields) d) = false) := by
  intro l
  induction l with
  | nil => intro h fields hmem; simp at hmem
  | cons el rest ih =>
      intro h fields hmem
      rcases List.mem_cons.mp hmem with heq | htail
      · subst heq
        simp only [gatePass] at h
        by_cases hprot : (match getField fields "@id" with
                          | some (J.str s) => prot.contains s
                          | _ => false) = true
        · exact Or.inl hprot
        · rw [if_neg hprot] at h
          by_cases hinc : isRelationshipAndIncomplete (J.obj fields) d = true
          · rw [if_pos hinc] at h; simp at h
          · rw [if_neg hinc] at h
            by_cases hstr : (typeInStrict fields &&
                !hasAllRefsDefined (J.obj fields) d) = true
            · rw [if_pos hstr] at h; simp at h
            · exact Or.inr ⟨by simpa using hinc, by simpa using hstr⟩
      · refine ih ?_ fields htail
        cases el with
        | obj fields2 =>
            simp only [gatePass] at h
            by_cases hprot : (match getField fields2 "@id" with
                              | some (J.str s) => prot.contains s
                              | _ => false) = true
            · rw [if_pos hprot] at h
              exact h
            · rw [if_neg hprot] at h
              by_cases hinc : isRelationshipAndIncomplete (J.obj fields2) d = true
              · rw [if_pos hinc] at h; simp at h
              · rw [if_neg hinc] at h
                by_cases hstr : (typeInStrict fields2 &&
                    !hasAllRefsDefined (J.obj fields2) d) = true
                · rw [if_pos hstr] at h; simp at h
                · rw [if_neg hstr] at h; exact h
        | str s => simpa only [gatePass] using h
        | num n => simpa only [gatePass] using h
        | bool b => simpa only [gatePass] using h
        | jnull => simpa only [gatePass] using h
        | arr items => simpa only [gatePass] using h

/-- An iteration that reports no change leaves the elements untouched. -/
theorem onePass_noChange_fixed (p : Bool) (els : List J)
    (h : (onePass p els).2 = false) : onePass p els = (els, false) := by
  have hsplit : ((els.map (dropThinF p (buildDefinedIds els))).any (fun q => q.1.isNone) ||
        (els.map (dropThinF p (buildDefinedIds els))).any (fun q => q.2)) = false ∧
      (gatePass (buildDefinedIds ((els.map (dropThinF p (buildDefinedIds els))).filterMap (fun q => q.1)))
        (findRootNamespaceIds els)
        ((els.map (dropThinF p (buildDefinedIds els))).filterMap (fun q => q.1))).2 = false := by
    simpa only [onePass, Bool.or_eq_false_iff] using h
  have hflags : ((els.map (dropThinF p (buildDefinedIds els))).any (fun q => q.2)) = false :=
    (Bool.or_eq_false_iff.mp hsplit.1).2
  have hnew : ((els.map (dropThinF p (buildDefinedIds els))).filterMap (fun q => q.1)) = els :=
    pruneMap_noChange_identity p (buildDefinedIds els) els hflags
  have hgate := hsplit.2
  rw [hnew] at hgate
  have hkept := gatePass_noChange_identity _ (findRootNamespaceIds els) els hgate
  simp only [onePass]
  rw [hnew, hkept, hsplit.1]
  simp [hgate]

/-- A converged run of the driver ends in a genuine fixpoint of the
iteration. -/
theorem cleanLoop_converged_fixed (p : Bool) :
    ∀ fuel els, (cleanLoop p fuel els).2.1 = false →
      onePass p (cleanLoop p fuel els).1 = ((cleanLoop p fuel els).1, false) := by
  intro fuel
  induction fuel with
  | zero => intro els h; simp [cleanLoop] at h
  | succ n ih =>
      intro els h
      simp only [cleanLoop] at h ⊢
      cases hstep : (onePass p els).2 with
      | true =>
          rw [if_pos (by simp [hstep])] at h ⊢
          exact ih _ h
      | false =>
          rw [if_neg (by simp [hstep])] at h ⊢
          have hfix := onePass_noChange_fixed p els hstep
          have h1 : (onePass p els).1 = els := congrArg Prod.fst hfix
          simp only [h1]
          exact onePass_noChange_fixed p els hstep

/-- Starting the driver at a genuine fixpoint returns it after one
iteration. -/
theorem cleanLoop_of_fixed (p : Bool) (els : List J)
    (h : onePass p els = (els, false)) :
    ∀ fuel, cleanLoop p (fuel + 1) els = (els, false, 1) := by
  intro fuel
  simp [cleanLoop, h]

/-- C1: with two root-namespace candidates carrying embedded timestamps
2020-01-01T00:00:00Z and 2021-01-01T00:00:00Z, the timestamp-tie-break
variant of the root-namespace selection deterministically picks the 2021
candidate and moves it to index 0, whichever order the candidates appear
in. -/
theorem root_tiebreak_selects_latest_timestamp :
    makeRootNamespaceFirstTs [nsCand2020, nsCand2021] = .ok [nsCand2021, nsCand2020] ∧
    makeRootNamespaceFirstTs [nsCand2021, nsCand2020] = .ok [nsCand2021, nsCand2020] :=
  ⟨rfl, rfl⟩

set_option maxRecDepth 10000 in
/-- C2 counterexample: the sanitizer is not idempotent.  On `chainInput`
(a 25-link Specialization chain with one dangling end) the 12-iteration cap
stops the fixpoint early with a dangling Specialization still present, and
a second application removes it, so the two outputs differ (already in
length: two elements versus one). -/
theorem sanitizer_not_idempotent_at_iteration_cap :
    cleanSysmlElements true (cleanSysmlElements true chainInput) ≠
      cleanSysmlElements true chainInput := by
  intro h
  exact absurd (congrArg List.length h) (by decide)

/-- C2 (amended): the sanitizer is idempotent on every input whose fixpoint
loop converges within the iteration cap and on whose converged result the
type-injection pass makes no change; the second run then performs no
further drops or injections and returns the identical element list. -/
theorem sanitizer_idempotent_of_converged (p : Bool) (els : List J)
    (hconv : (cleanLoop p MAX_ITERS els).2.1 = false)
    (hinj : injectInferredTypes (cleanLoop p MAX_ITERS els).1 =
      (cleanLoop p MAX_ITERS els).1) :
    cleanSysmlElements p (cleanSysmlElements p els) = cleanSysmlElements p els := by
  have hfix : onePass p (cleanLoop p MAX_ITERS els).1 =
      ((cleanLoop p MAX_ITERS els).1, false) :=
    cleanLoop_converged_fixed p MAX_ITERS els hconv
  have h1 : cleanSysmlElements p els = (cleanLoop p MAX_ITERS els).1 := by
    simpa only [cleanSysmlElements] using hinj
  have h2 : cleanLoop p MAX_ITERS (cleanLoop p MAX_ITERS els).1 =
      ((cleanLoop p MAX_ITERS els).1, false, 1) :=
    cleanLoop_of_fixed p _ hfix 11
  rw [h1]
  simp only [cleanSysmlElements, h2]
  exact hinj

/-- Witness for the amended C2 theorem at a concrete converged input. -/
theorem sanitizer_idempotent_of_converged_witness :
    cleanSysmlElements true (cleanSysmlElements true [wA, wB, wS]) =
      cleanSysmlElements true [wA, wB, wS] :=
  sanitizer_idempotent_of_converged true [wA, wB, wS] (by rfl) (by rfl)

/-- Enumerate the membership kinds. -/
theorem membership_kind_cases (t : String) (h : MEMBERSHIP_RELS.contains t = true) :
    t = "OwningMembership" ∨ t = "FeatureMembership" ∨ t = "NamespaceMembership" ∨
    t = "Membership" ∨ t = "ParameterMembership" := by
  simpa [MEMBERSHIP_RELS] using h

/-- A membership kind is not the empty tag, not strict, and not any of the
kinds tested by the completeness rules. -/
theorem membership_kind_facts (t : String) (h : MEMBERSHIP_RELS.contains t = true) :
    (t == "Empty") = false ∧ STRICT_REL_TO_DROP.contains t = false ∧
    (t == "Subsetting") = false ∧ (t == "Specialization") = false ∧
    (t == "FeatureTyping") = false ∧ (t == "FeatureValue") = false ∧
    (t == "Subclassification") = false ∧ (t == "TypeFeaturing") = false := by
  rcases membership_kind_cases t h with h | h | h | h | h <;> subst h <;>
    exact ⟨rfl, rfl, rfl, rfl, rfl, rfl, rfl, rfl⟩

/-- The pruner keeps a string-valued field of a dict unchanged. -/
theorem getField_str_preserved_by_prune (p : Bool) (d : List String) :
    ∀ (fields : List (String × J)) (k s : String),
      getField fields k = some (J.str s) →
      getField (dropThinFObj p d fields).1 k = some (J.str s) := by
  intro fields
  induction fields with
  | nil => intro k s h; simp [getField] at h
  | cons hd tl ih =>
      obtain ⟨k1, v1⟩ := hd
      intro k s h
      simp only [getField] at h
      by_cases hk : (k1 == k) = true
      · rw [if_pos hk] at h
        injection h with h
        subst h
        simp [dropThinFObj, dropThinF, getField, hk]
      · rw [if_neg hk] at h
        have htl := ih k s h
        cases hc : (dropThinF p d v1).1 with
        | none => simp only [dropThinFObj, hc]; exact htl
        | some w =>
            simp only [dropThinFObj, hc, getField]
            rw [if_neg hk]
            exact htl

/-- The pruner never drops a membership element and keeps its `@id` and
`@type` fields. -/
theorem dropThinF_membership (p : Bool) (d : List String)
    (fields : List (String × J)) (t i : String)
    (htype : getField fields "@type" = some (J.str t))
    (hkind : MEMBERSHIP_RELS.contains t = true)
    (hid : getField fields "@id" = some (J.str i)) :
    ∃ fields2,
      (dropThinF p d (J.obj fields)).1 = some (J.obj fields2) ∧
      getField fields2 "@type" = some (J.str t) ∧
      getField fields2 "@id" = some (J.str i) := by
  obtain ⟨hEmpty, hStrict, _⟩ := membership_kind_facts t hkind
  have h1 : optValEqStr (getField fields "@type") "Empty" = false := by
    rw [htype]; simpa [optValEqStr] using hEmpty
  have h2 : typeInStrict fields = false := by
    simp only [typeInStrict, htype]
    exact hStrict
  have h3 : isRefDict (J.obj fields) = false := by
    simp [isRefDict, hasKey, htype]
  refine ⟨(dropThinFObj p d fields).1, ?_, ?_, ?_⟩
  · simp only [dropThinF]
    rw [if_neg (by simp [h1]), if_neg (by simp [h2]), if_neg (by simp [h3])]
  · exact getField_str_preserved_by_prune p d fields "@type" t htype
  · exact getField_str_preserved_by_prune p d fields "@id" i hid

/-- The top-level filter keeps every membership element. -/
theorem gatePass_keeps_membership (d prot : List String) :
    ∀ (l : List J) (fields : List (String × J)) (t : String),
      J.obj fields ∈ l →
      getField fields "@type" = some (J.str t) →
      MEMBERSHIP_RELS.contains t = true →
      J.obj fields ∈ (gatePass d prot l).1 := by
  intro l
  induction l with
  | nil => intro fields t hmem; simp at hmem
  | cons el rest ih =>
      intro fields t hmem htype hkind
      rcases List.mem_cons.mp hmem with heq | htail
      · subst heq
        obtain ⟨_, hStrict, hsub, hspec, hft, hfv, hsubc, htf⟩ :=
          membership_kind_facts t hkind
        have hinc : isRelationshipAndIncomplete (J.obj fields) d = false := by
          simp only [isRelationshipAndIncomplete, J.getKey, htype]
          rw [if_neg (by simp [hsub]), if_neg (by simp [hspec]), if_neg (by simp [hft]),
            if_neg (by simp [hfv]), if_neg (by simp [hsubc]), if_neg (by simp [htf])]
        have hstr : typeInStrict fields = false := by
          simp only [typeInStrict, htype]
          exact hStrict
        simp only [gatePass]
        by_cases hprot : (match getField fields "@id" with
                          | some (J.str s) => prot.contains s
                          | _ => false) = true
        · rw [if_pos hprot]
          exact List.mem_cons_self _ _
        · rw [if_neg hprot, if_neg (by simp [hinc]), if_neg (by simp [hstr])]
          exact List.mem_cons_self _ _
      · have htl := ih fields t htail htype hkind
        cases el with
        | obj fields2 =>
            simp only [gatePass]
            by_cases hprot : (match getField fields2 "@id" with
                              | some (J.str s) => prot.contains s
                              | _ => false) = true
            · rw [if_pos hprot]
              exact List.mem_cons_of_mem _ htl
            · rw [if_neg hprot]
              by_cases hinc : isRelationshipAndIncomplete (J.obj fields2) d = true
              · rw [if_pos hinc]; exact htl
              · rw [if_neg hinc]
                by_cases hstr2 : (typeInStrict fields2 &&
                    !hasAllRefsDefined (J.obj fields2) d) = true
                · rw [if_pos hstr2]; exact htl
                · rw [if_neg hstr2]; exact List.mem_cons_of_mem _ htl
        | str s => simp only [gatePass]; exact List.mem_cons_of_mem _ htl
        | num n => simp only [gatePass]; exact List.mem_cons_of_mem _ htl
        | bool b => simp only [gatePass]; exact List.mem_cons_of_mem _ htl
        | jnull => simp only [gatePass]; exact List.mem_cons_of_mem _ htl
        | arr items => simp only [gatePass]; exact List.mem_cons_of_mem _ htl

/-- One fixpoint iteration keeps every membership element (possibly with
other fields pruned) together with its `@id` and `@type`. -/
theorem onePass_keeps_membership (p : Bool) (els : List J)
    (fields : List (String × J)) (t i : String)
    (hmem : J.obj fields ∈ els)
    (htype : getField fields "@type" = some (J.str t))
    (hkind : MEMBERSHIP_RELS.contains t = true)
    (hid : getField fields "@id" = some (J.str i)) :
    ∃ fields2, J.obj fields2 ∈ (onePass p els).1 ∧
      getField fields2 "@type" = some (J.str t) ∧
      getField fields2 "@id" = some (J.str i) := by
  obtain ⟨fields2, hdrop, ht2, hi2⟩ :=
    dropThinF_membership p (buildDefinedIds els) fields t i htype hkind hid
  have hmem2 : J.obj fields2 ∈
      (els.map (dropThinF p (buildDefinedIds els))).filterMap (fun q => q.1) := by
    refine List.mem_filterMap.mpr ⟨dropThinF p (buildDefinedIds els) (J.obj fields), ?_, hdrop⟩
    exact List.mem_map.mpr ⟨J.obj fields, hmem, rfl⟩
  refine ⟨fields2, ?_, ht2, hi2⟩
  simp only [onePass]
  exact gatePass_keeps_membership _ _ _ fields2 t hmem2 ht2 hkind

/-- The whole fixpoint loop keeps every membership element. -/
theorem cleanLoop_keeps_membership (p : Bool) :
    ∀ (fuel : Nat) (els : List J) (fields : List (String × J)) (t i : String),
      J.obj fields ∈ els →
      getField fields "@type" = some (J.str t) →
      MEMBERSHIP_RELS.contains t = true →
      getField fields "@id" = some (J.str i) →
      ∃ fields2, J.obj fields2 ∈ (cleanLoop p fuel els).1 ∧
        getField fields2 "@type" = some (J.str t) ∧
        getField fields2 "@id" = some (J.str i) := by
  intro fuel
  induction fuel with
  | zero =>
      intro els fields t i hmem ht hk hi
      exact ⟨fields, by simpa [cleanLoop] using hmem, ht, hi⟩
  | succ n ih =>
      intro els fields t i hmem ht hk hi
      obtain ⟨f2, hmem2, ht2, hi2⟩ := onePass_keeps_membership p els fields t i hmem ht hk hi
      simp only [cleanLoop]
      cases hstep : (onePass p els).2 with
      | true =>
          rw [if_pos (by simp [hstep])]
          exact ih (onePass p els).1 f2 t i hmem2 ht2 hk hi2
      | false =>
          rw [if_neg (by simp [hstep])]
          exact ⟨f2, hmem2, ht2, hi2⟩

/-- The explicit-typing injection returns a dict whose lookups away from
`type` are unchanged. -/
theorem injectExplicitType_getField (ft : List (J × J)) (fields : List (String × J)) :
    ∃ fields2, injectExplicitType ft (J.obj fields) = J.obj fields2 ∧
      ∀ k, (k == "type") = false → getField fields2 k = getField fields k := by
  cases hg : getField fields "@id" with
  | none =>
      refine ⟨fields, ?_, fun k hk => rfl⟩
      simp only [injectExplicitType, hg]
  | some idv =>
      cases hm : jmapGet ft idv with
      | none =>
          refine ⟨fields, ?_, fun k hk => rfl⟩
          simp only [injectExplicitType, hg, hm]
      | some ty =>
          by_cases hty : hasKey fields "type" = true
          · refine ⟨fields, ?_, fun k hk => rfl⟩
            simp only [injectExplicitType, hg, hm]
            rw [if_pos hty]
          · refine ⟨fields ++ [("type", J.obj [("@id", ty)])], ?_,
              fun k hk => getField_append_single_ne fields k "type" _ hk⟩
            simp only [injectExplicitType, hg, hm]
            rw [if_neg hty]

/-- The children-self-typing injection returns a dict whose lookups away
from `type` are unchanged. -/
theorem injectChildrenSelfType_getField (fo : List (J × J)) (partIds : List J)
    (fields : List (String × J)) :
    ∃ fields2, injectChildrenSelfType fo partIds (J.obj fields) = J.obj fields2 ∧
      ∀ k, (k == "type") = false → getField fields2 k = getField fields k := by
  by_cases hty : hasKey fields "type" = true
  · refine ⟨fields, ?_, fun k hk => rfl⟩
    simp only [injectChildrenSelfType]
    rw [if_pos hty]
  · by_cases hname : (!optValEqStr (getField fields "name") "children") = true
    · refine ⟨fields, ?_, fun k hk => rfl⟩
      simp only [injectChildrenSelfType]
      rw [if_neg hty, if_pos hname]
    · cases ho : orTruthy (orTruthy (orTruthy
          (match getField fields "@id" with
           | some idv => jmapGet fo idv
           | none => none)
          (firstId (getField fields "owningType")))
          (firstId (getField fields "owningNamespace")))
          (firstId (getField fields "featuringType")) with
      | none =>
          refine ⟨fields, ?_, fun k hk => rfl⟩
          simp only [injectChildrenSelfType, ho]
          rw [if_neg hty, if_neg hname]
      | some ov =>
          by_cases hpart : (partIds.any (fun q => jBeq q ov)) = true
          · refine ⟨fields ++ [("type", J.obj [("@id", ov)])], ?_,
              fun k hk => getField_append_single_ne fields k "type" _ hk⟩
            simp only [injectChildrenSelfType, ho]
            rw [if_neg hty, if_neg hname, if_pos hpart]
          · refine ⟨fields, ?_, fun k hk => rfl⟩
            simp only [injectChildrenSelfType, ho]
            rw [if_neg hty, if_neg hname, if_neg hpart]

/-- Every element of a list reappears in the injection walk with all its
lookups away from `type` unchanged. -/
theorem injectWalk_keeps (ft fo : List (J × J)) (partIds : List J) :
    ∀ (l : List J) (el : J), el ∈ l →
      ∃ el2, el2 ∈ injectWalk ft fo partIds l ∧
        ∀ k, (k == "type") = false → el2.getKey k = el.getKey k := by
  intro l
  induction l with
  | nil => intro el hmem; simp at hmem
  | cons el0 rest ih =>
      intro el hmem
      rcases List.mem_cons.mp hmem with heq | htail
      · subst heq
        by_cases hsel : (isFullDef el && !(match idOfRaw el with
                          | some idv => laterHasSameId idv rest
                          | none => false)) = true
        · cases el with
          | obj fields =>
              obtain ⟨f1, he1, hp1⟩ := injectExplicitType_getField ft fields
              obtain ⟨f2, he2, hp2⟩ := injectChildrenSelfType_getField fo partIds f1
              refine ⟨J.obj f2, ?_, ?_⟩
              · simp only [injectWalk]
                rw [if_pos hsel, he1, he2]
                exact List.mem_cons_self _ _
              · intro k hk
                simp only [J.getKey]
                rw [hp2 k hk, hp1 k hk]
          | str s => simp [isFullDef] at hsel
          | num n => simp [isFullDef] at hsel
          | bool b => simp [isFullDef] at hsel
          | jnull => simp [isFullDef] at hsel
          | arr items => simp [isFullDef] at hsel
        · refine ⟨el, ?_, fun k hk => rfl⟩
          simp only [injectWalk]
          rw [if_neg hsel]
          exact List.mem_cons_self _ _
      · obtain ⟨el2, hmem2, hpres⟩ := ih el htail
        exact ⟨el2, by simp only [injectWalk]; exact List.mem_cons_of_mem _ hmem2, hpres⟩

/-- C3: a top-level element of a membership kind with a string id is present
in the sanitizer output — its `@id` and `@type` survive every iteration of
pruning, the top-level filter, and the injection pass, even when its
endpoint references are unresolved. -/
theorem membership_elements_never_dropped (p : Bool) (els : List J) (el : J) (t i : String)
    (hmem : el ∈ els)
    (htype : el.getKey "@type" = some (J.str t))
    (hkind : MEMBERSHIP_RELS.contains t = true)
    (hid : el.getKey "@id" = some (J.str i)) :
    ∃ el2, el2 ∈ cleanSysmlElements p els ∧
      el2.getKey "@type" = some (J.str t) ∧ el2.getKey "@id" = some (J.str i) := by
  cases el with
  | obj fields =>
      simp only [J.getKey] at htype hid
      obtain ⟨f2, hmem2, ht2, hi2⟩ :=
        cleanLoop_keeps_membership p MAX_ITERS els fields t i hmem htype hkind hid
      obtain ⟨el3, hmem3, hpres⟩ :=
        injectWalk_keeps (buildFeatToType (cleanLoop p MAX_ITERS els).1)
          (buildFeatureOwner (cleanLoop p MAX_ITERS els).1)
          (partDefIds (cleanLoop p MAX_ITERS els).1)
          (cleanLoop p MAX_ITERS els).1 (J.obj f2) hmem2
      refine ⟨el3, ?_, ?_, ?_⟩
      · simpa only [cleanSysmlElements, injectInferredTypes] using hmem3
      · rw [hpres "@type" rfl]
        simpa only [J.getKey] using ht2
      · rw [hpres "@id" rfl]
        simpa only [J.getKey] using hi2
  | str s => simp [J.getKey] at htype
  | num n => simp [J.getKey] at htype
  | bool b => simp [J.getKey] at htype
  | jnull => simp [J.getKey] at htype
  | arr items => simp [J.getKey] at htype

/-- Witness for C3: a membership element with a dangling endpoint is still
present (with its id and kind) in the sanitizer output. -/
theorem membership_elements_never_dropped_witness :
    ∃ el2, el2 ∈ cleanSysmlElements true [memEl] ∧
      el2.getKey "@type" = some (J.str "OwningMembership") ∧
      el2.getKey "@id" = some (J.str "m1") :=
  membership_elements_never_dropped true [memEl] memEl "OwningMembership" "m1"
    (List.mem_singleton.mpr rfl) rfl rfl rfl

/-- The explicit-typing injection either leaves the dict alone or appends a
single `type` field. -/
theorem injectExplicitType_shape (ft : List (J × J)) (fields : List (String × J)) :
    injectExplicitType ft (J.obj fields) = J.obj fields ∨
    ∃ v, injectExplicitType ft (J.obj fields) = J.obj (fields ++ [("type", v)]) := by
  cases hg : getField fields "@id" with
  | none => left; simp only [injectExplicitType, hg]
  | some idv =>
      cases hm : jmapGet ft idv with
      | none => left; simp only [injectExplicitType, hg, hm]
      | some ty =>
          by_cases hty : hasKey fields "type" = true
          · left; simp only [injectExplicitType, hg, hm]; rw [if_pos hty]
          · right
            refine ⟨J.obj [("@id", ty)], ?_⟩
            simp only [injectExplicitType, hg, hm]
            rw [if_neg hty]

/-- The children-self-typing injection either leaves the dict alone or
appends a single `type` field. -/
theorem injectChildrenSelfType_shape (fo : List (J × J)) (partIds : List J)
    (fields : List (String × J)) :
    injectChildrenSelfType fo partIds (J.obj fields) = J.obj fields ∨
    ∃ v, injectChildrenSelfType fo partIds (J.obj fields) =
      J.obj (fields ++ [("type", v)]) := by
  by_cases hty : hasKey fields "type" = true
  · left; simp only [injectChildrenSelfType]; rw [if_pos hty]
  · by_cases hname : (!optValEqStr (getField fields "name") "children") = true
    · left; simp only [injectChildrenSelfType]; rw [if_neg hty, if_pos hname]
    · cases ho : orTruthy (orTruthy (orTruthy
          (match getField fields "@id" with
           | some idv => jmapGet fo idv
           | none => none)
          (firstId (getField fields "owningType")))
          (firstId (getField fields "owningNamespace")))
          (firstId (getField fields "featuringType")) with
      | none =>
          left
          simp only [injectChildrenSelfType, ho]
          rw [if_neg hty, if_neg hname]
      | some ov =>
          by_cases hpart : (partIds.any (fun q => jBeq q ov)) = true
          · right
            refine ⟨J.obj [("@id", ov)], ?_⟩
            simp only [injectChildrenSelfType, ho]
            rw [if_neg hty, if_neg hname, if_pos hpart]
          · left
            simp only [injectChildrenSelfType, ho]
            rw [if_neg hty, if_neg hname, if_neg hpart]

/-- The field-walk of the id collector distributes over append. -/
theorem collectDefinedIdsObj_append (l1 l2 : List (String × J)) :
    collectDefinedIdsObj (l1 ++ l2) = collectDefinedIdsObj l1 ++ collectDefinedIdsObj l2 := by
  induction l1 with
  | nil => simp [collectDefinedIdsObj]
  | cons hd tl ih =>
      obtain ⟨k, v⟩ := hd
      simp [collectDefinedIdsObj, ih]

/-- Appending a `type` field to a dict can only enlarge the collected id
set. -/
theorem collect_mem_append_type (fields : List (String × J)) (v : J) (s : String)
    (h : s ∈ collectDefinedIds (J.obj fields)) :
    s ∈ collectDefinedIds (J.obj (fields ++ [("type", v)])) := by
  have h1 : getField (fields ++ [("type", v)]) "@id" = getField fields "@id" :=
    getField_append_single_ne fields "@id" "type" v (by decide)
  have h2 : getField (fields ++ [("type", v)]) "@type" = getField fields "@type" :=
    getField_append_single_ne fields "@type" "type" v (by decide)
  simp only [collectDefinedIds, h1, hasKey, h2, collectDefinedIdsObj_append] at h ⊢
  rcases List.mem_append.mp h with hown | hfields
  · exact List.mem_append.mpr (Or.inl hown)
  · exact List.mem_append.mpr (Or.inr (List.mem_append.mpr (Or.inl hfields)))

/-- A collected id of an element is still collected after the injection
passes. -/
theorem collect_mem_inject (ft fo : List (J × J)) (partIds : List J) (el : J) (s : String)
    (h : s ∈ collectDefinedIds el) :
    s ∈ collectDefinedIds (injectChildrenSelfType fo partIds (injectExplicitType ft el)) := by
  cases el with
  | obj fields =>
      have h1 : s ∈ collectDefinedIds (injectExplicitType ft (J.obj fields)) := by
        rcases injectExplicitType_shape ft fields with heq | ⟨v, heq⟩
        · rw [heq]; exact h
        · rw [heq]; exact collect_mem_append_type fields v s h
      rcases hshape : injectExplicitType ft (J.obj fields) with _ | _ | _ | _ | _ | f1
      · rw [hshape] at h1; simp [collectDefinedIds] at h1
      · rw [hshape] at h1; simp [collectDefinedIds] at h1
      · rw [hshape] at h1; simp [collectDefinedIds] at h1
      · rw [hshape] at h1; simp [collectDefinedIds] at h1
      · rcases injectExplicitType_shape ft fields with heq | ⟨v, heq⟩ <;>
          rw [heq] at hshape <;> exact absurd hshape (by simp)
      · rw [hshape] at h1
        rcases injectChildrenSelfType_shape fo partIds f1 with heq | ⟨v, heq⟩
        · rw [heq]; exact h1
        · rw [heq]; exact collect_mem_append_type f1 v s h1
  | str t => simp [collectDefinedIds] at h
  | num n => simp [collectDefinedIds] at h
  | bool b => simp [collectDefinedIds] at h
  | jnull => simp [collectDefinedIds] at h
  | arr items =>
      simp only [injectExplicitType, injectChildrenSelfType]
      exact h

/-- Ids collected from a list survive the injection walk. -/
theorem collectList_mem_injectWalk (ft fo : List (J × J)) (partIds : List J) :
    ∀ (l : List J) (s : String), s ∈ collectDefinedIdsList l →
      s ∈ collectDefinedIdsList (injectWalk ft fo partIds l) := by
  intro l
  induction l with
  | nil => intro s h; simpa using h
  | cons el rest ih =>
      intro s h
      simp only [collectDefinedIdsList] at h
      simp only [injectWalk, collectDefinedIdsList]
      rcases List.mem_append.mp h with hel | hrest
      · refine List.mem_append.mpr (Or.inl ?_)
        by_cases hsel : (isFullDef el && !(match idOfRaw el with
                          | some idv => laterHasSameId idv rest
                          | none => false)) = true
        · rw [if_pos hsel]
          exact collect_mem_inject ft fo partIds el s hel
        · rw [if_neg hsel]
          exact hel
      · exact List.mem_append.mpr (Or.inr (ih s hrest))

/-- Membership in the defined-id set survives the injection pass. -/
theorem buildDefinedIds_contains_inject (ft fo : List (J × J)) (partIds : List J)
    (l : List J) (s : String) (h : (buildDefinedIds l).contains s = true) :
    (buildDefinedIds (injectWalk ft fo partIds l)).contains s = true := by
  have hmem : s ∈ buildDefinedIds l := by simpa using h
  have : s ∈ buildDefinedIds (injectWalk ft fo partIds l) :=
    collectList_mem_injectWalk ft fo partIds l s hmem
  simpa using this

/-- A resolvable reference stays resolvable in a larger defined-id set. -/
theorem refDefined_mono (v : Option J) (d1 d2 : List String)
    (hsub : ∀ s, d1.contains s = true → d2.contains s = true)
    (h : refDefined v d1 = true) : refDefined v d2 = true := by
  cases v with
  | none => simp [refDefined] at h
  | some w =>
      cases w with
      | obj fields =>
          simp only [refDefined] at h ⊢
          cases hg : getField fields "@id" with
          | none => rw [hg] at h; simp at h
          | some idv =>
              rw [hg] at h
              cases idv with
              | str s => exact hsub s h
              | num n => simp at h
              | bool b => simp at h
              | jnull => simp at h
              | arr items => simp at h
              | obj f2 => simp at h
      | str t => simp [refDefined] at h
      | num n => simp [refDefined] at h
      | bool b => simp [refDefined] at h
      | jnull => simp [refDefined] at h
      | arr items => simp [refDefined] at h

/-- A resolvable single reference satisfies the endpoint test of
`has_defined_ref`. -/
theorem hasDefinedRef_of_refDefined (el : J) (name : String) (d : List String)
    (h : refDefined (el.getKey name) d = true) : hasDefinedRef el name d = true := by
  cases hv : el.getKey name with
  | none => rw [hv] at h; simp [refDefined] at h
  | some w =>
      rw [hv] at h
      cases w with
      | obj fields => simp only [hasDefinedRef, hv]; exact h
      | str t => simp [refDefined] at h
      | num n => simp [refDefined] at h
      | bool b => simp [refDefined] at h
      | jnull => simp [refDefined] at h
      | arr items =>
          cases items with
          | nil => simp [refDefined] at h
          | cons i rest => simp [refDefined] at h

/-- With no change reported, the kept elements of an iteration satisfy the
gate conditions against the ids and roots of that same state. -/
theorem onePass_noChange_gate_facts (p : Bool) (els : List J)
    (h : (onePass p els).2 = false) :
    ∀ fields, J.obj fields ∈ els →
      ((match getField fields "@id" with
        | some (J.str s) => (findRootNamespaceIds els).contains s
        | _ => false) = true) ∨
      (isRelationshipAndIncomplete (J.obj fields) (buildDefinedIds els) = false ∧
       (typeInStrict fields &&
        !hasAllRefsDefined (J.obj fields) (buildDefinedIds els)) = false) := by
  have hsplit : ((els.map (dropThinF p (buildDefinedIds els))).any (fun q => q.1.isNone) ||
        (els.map (dropThinF p (buildDefinedIds els))).any (fun q => q.2)) = false ∧
      (gatePass (buildDefinedIds ((els.map (dropThinF p (buildDefinedIds els))).filterMap (fun q => q.1)))
        (findRootNamespaceIds els)
        ((els.map (dropThinF p (buildDefinedIds els))).filterMap (fun q => q.1))).2 = false := by
    simpa only [onePass, Bool.or_eq_false_iff] using h
  have hflags : ((els.map (dropThinF p (buildDefinedIds els))).any (fun q => q.2)) = false :=
    (Bool.or_eq_false_iff.mp hsplit.1).2
  have hnew : ((els.map (dropThinF p (buildDefinedIds els))).filterMap (fun q => q.1)) = els :=
    pruneMap_noChange_identity p (buildDefinedIds els) els hflags
  have hgate := hsplit.2
  rw [hnew] at hgate
  exact fun fields hf => gatePass_noChange_facts _ _ els hgate fields hf

/-- Every element of the injection walk output comes from an input element
with identical lookups away from `type`. -/
theorem injectWalk_memback (ft fo : List (J × J)) (partIds : List J) :
    ∀ (l : List J) (el2 : J), el2 ∈ injectWalk ft fo partIds l →
      ∃ el, el ∈ l ∧ ∀ k, (k == "type") = false → el2.getKey k = el.getKey k := by
  intro l
  induction l with
  | nil => intro el2 h; simp [injectWalk] at h
  | cons el0 rest ih =>
      intro el2 h
      simp only [injectWalk] at h
      rcases List.mem_cons.mp h with heq | htail
      · refine ⟨el0, List.mem_cons_self _ _, ?_⟩
        by_cases hsel : (isFullDef el0 && !(match idOfRaw el0 with
                          | some idv => laterHasSameId idv rest
                          | none => false)) = true
        · rw [if_pos hsel] at heq
          cases el0 with
          | obj fields =>
              obtain ⟨f1, he1, hp1⟩ := injectExplicitType_getField ft fields
              obtain ⟨f2, he2, hp2⟩ := injectChildrenSelfType_getField fo partIds f1
              rw [he1, he2] at heq
              subst heq
              intro k hk
              simp only [J.getKey]
              rw [hp2 k hk, hp1 k hk]
          | str s => simp [isFullDef] at hsel
          | num n => simp [isFullDef] at hsel
          | bool b => simp [isFullDef] at hsel
          | jnull => simp [isFullDef] at hsel
          | arr items => simp [isFullDef] at hsel
        · rw [if_neg hsel] at heq
          subst heq
          exact fun k hk => rfl
      · obtain ⟨el, hmem, hp⟩ := ih el2 htail
        exact ⟨el, List.mem_cons_of_mem _ hmem, hp⟩

/-- Enumerate the strict heritage kinds. -/
theorem strict_kind_cases (t : String) (h : STRICT_REL_TO_DROP.contains t = true) :
    t = "Subsetting" ∨ t = "Specialization" ∨ t = "Subclassification" := by
  simpa [STRICT_REL_TO_DROP] using h

/-- A boolean whose negation is false is true. -/
theorem bool_not_eq_false (b : Bool) (h : (!b) = false) : b = true := by
  cases b
  · simp at h
  · rfl

/-- A kept, flag-clear result of the pruner on an object means the strict
drop branch did not fire; a strict-typed object must then be a complete
relationship.  The pruner applies this check unconditionally, with no
protected-id exemption. -/
theorem dropThinF_noflag_strict_complete (p : Bool) (d : List String)
    (fields : List (String × J))
    (hstrict : typeInStrict fields = true)
    (hflag : (dropThinF p d (J.obj fields)).2 = false) :
    isRelationshipAndIncomplete (J.obj fields) d = false := by
  simp only [dropThinF] at hflag
  by_cases h1 : optValEqStr (getField fields "@type") "Empty" = true
  · rw [if_pos h1] at hflag; simp at hflag
  · rw [if_neg h1] at hflag
    by_cases h2 : (typeInStrict fields &&
        (isRelationshipAndIncomplete (J.obj fields) d ||
         !hasAllRefsDefined (J.obj fields) d)) = true
    · rw [if_pos h2] at hflag; simp at hflag
    · cases hinc : isRelationshipAndIncomplete (J.obj fields) d with
      | false => rfl
      | true =>
          exact absurd (show (typeInStrict fields &&
              (isRelationshipAndIncomplete (J.obj fields) d ||
               !hasAllRefsDefined (J.obj fields) d)) = true by
            rw [hstrict, hinc]; rfl) h2

/-- With no change reported by an iteration, every element of its state
survives the pruner of that iteration with a clear drop flag. -/
theorem onePass_noChange_prune_flags (p : Bool) (els : List J)
    (h : (onePass p els).2 = false) :
    ∀ el ∈ els, (dropThinF p (buildDefinedIds els) el).2 = false := by
  have hsplit : ((els.map (dropThinF p (buildDefinedIds els))).any (fun q => q.1.isNone) ||
        (els.map (dropThinF p (buildDefinedIds els))).any (fun q => q.2)) = false ∧
      (gatePass (buildDefinedIds ((els.map (dropThinF p (buildDefinedIds els))).filterMap (fun q => q.1)))
        (findRootNamespaceIds els)
        ((els.map (dropThinF p (buildDefinedIds els))).filterMap (fun q => q.1))).2 = false := by
    simpa only [onePass, Bool.or_eq_false_iff] using h
  have hany : ((els.map (dropThinF p (buildDefinedIds els))).any (fun q => q.2)) = false :=
    (Bool.or_eq_false_iff.mp hsplit.1).2
  intro el hmem
  cases hflag : (dropThinF p (buildDefinedIds els) el).2 with
  | false => rfl
  | true =>
      have hmem2 : dropThinF p (buildDefinedIds els) el ∈
          els.map (dropThinF p (buildDefinedIds els)) :=
        List.mem_map_of_mem _ hmem
      have htrue : ((els.map (dropThinF p (buildDefinedIds els))).any (fun q => q.2)) = true :=
        List.any_eq_true.mpr ⟨_, hmem2, hflag⟩
      rw [hany] at htrue
      exact absurd htrue (by simp)

/-- C4 (amended): on a run whose fixpoint loop converges within the
iteration cap, every output element of a strict heritage kind has its
required endpoints resolving (as single thin references, hence also under
the thin-reference or list-of-thin-references notion of `has_defined_ref`)
in the defined-id set of the output itself. -/
theorem strict_endpoints_resolve_of_converged (p : Bool) (els : List J) (el2 : J)
    (hconv : (cleanLoop p MAX_ITERS els).2.1 = false)
    (hmem : el2 ∈ cleanSysmlElements p els)
    (hstrict : isStrictHeritage el2 = true) :
    strictEndpointsResolve el2 (buildDefinedIds (cleanSysmlElements p els)) = true := by
  have hcse : cleanSysmlElements p els =
      injectWalk (buildFeatToType (cleanLoop p MAX_ITERS els).1)
        (buildFeatureOwner (cleanLoop p MAX_ITERS els).1)
        (partDefIds (cleanLoop p MAX_ITERS els).1)
        (cleanLoop p MAX_ITERS els).1 := by
    simp only [cleanSysmlElements, injectInferredTypes]
  rw [hcse] at hmem ⊢
  have hfix : onePass p (cleanLoop p MAX_ITERS els).1 =
      ((cleanLoop p MAX_ITERS els).1, false) :=
    cleanLoop_converged_fixed p MAX_ITERS els hconv
  have hOP2 : (onePass p (cleanLoop p MAX_ITERS els).1).2 = false := by rw [hfix]
  obtain ⟨el0, hmem0, hpres⟩ := injectWalk_memback _ _ _ _ el2 hmem
  have hsub : ∀ s, (buildDefinedIds (cleanLoop p MAX_ITERS els).1).contains s = true →
      (buildDefinedIds (injectWalk (buildFeatToType (cleanLoop p MAX_ITERS els).1)
        (buildFeatureOwner (cleanLoop p MAX_ITERS els).1)
        (partDefIds (cleanLoop p MAX_ITERS els).1)
        (cleanLoop p MAX_ITERS els).1)).contains s = true :=
    fun s hs => buildDefinedIds_contains_inject _ _ _ _ s hs
  cases hT : el2.getKey "@type" with
  | none => rw [isStrictHeritage, hT] at hstrict; simp at hstrict
  | some v =>
      cases v with
      | str t =>
          have hcont : STRICT_REL_TO_DROP.contains t = true := by
            rw [isStrictHeritage, hT] at hstrict
            exact hstrict
          have htype0 : el0.getKey "@type" = some (J.str t) := by
            rw [← hpres "@type" (by decide)]
            exact hT
          cases el0 with
          | obj fields0 =>
              have hstrict0 : typeInStrict fields0 = true := by
                have hgf : getField fields0 "@type" = some (J.str t) := by
                  simpa only [J.getKey] using htype0
                simp only [typeInStrict, hgf]
                exact hcont
              have hinc : isRelationshipAndIncomplete (J.obj fields0)
                  (buildDefinedIds (cleanLoop p MAX_ITERS els).1) = false :=
                dropThinF_noflag_strict_complete p _ fields0 hstrict0
                  (onePass_noChange_prune_flags p _ hOP2 _ hmem0)
              rcases strict_kind_cases t hcont with rfl | rfl | rfl
              · -- Subsetting
                  simp only [isRelationshipAndIncomplete, htype0] at hinc
                  rw [if_pos (show ("Subsetting" == "Subsetting") = true from rfl)] at hinc
                  have hAB := bool_not_eq_false _ hinc
                  simp only [strictEndpointsResolve, hT]
                  rw [if_pos (show ("Subsetting" == "Subsetting") = true from rfl)]
                  rcases Bool.or_eq_true_iff.mp hAB with hA | hB
                  · obtain ⟨h1, h2⟩ := Bool.and_eq_true_iff.mp hA
                    have e1 : el2.getKey "specific" = (J.obj fields0).getKey "specific" :=
                      hpres "specific" (by decide)
                    have e2 : el2.getKey "general" = (J.obj fields0).getKey "general" :=
                      hpres "general" (by decide)
                    have r1 : hasDefinedRef el2 "specific" _ = true :=
                      hasDefinedRef_of_refDefined el2 "specific" _
                        (by rw [e1]; exact refDefined_mono _ _ _ hsub h1)
                    have r2 : hasDefinedRef el2 "general" _ = true :=
                      hasDefinedRef_of_refDefined el2 "general" _
                        (by rw [e2]; exact refDefined_mono _ _ _ hsub h2)
                    rw [r1, r2]
                    simp
                  · obtain ⟨h1, h2⟩ := Bool.and_eq_true_iff.mp hB
                    have e1 : el2.getKey "subsettingFeature" =
                        (J.obj fields0).getKey "subsettingFeature" :=
                      hpres "subsettingFeature" (by decide)
                    have e2 : el2.getKey "subsettedFeature" =
                        (J.obj fields0).getKey "subsettedFeature" :=
                      hpres "subsettedFeature" (by decide)
                    have r1 : hasDefinedRef el2 "subsettingFeature" _ = true :=
                      hasDefinedRef_of_refDefined el2 "subsettingFeature" _
                        (by rw [e1]; exact refDefined_mono _ _ _ hsub h1)
                    have r2 : hasDefinedRef el2 "subsettedFeature" _ = true :=
                      hasDefinedRef_of_refDefined el2 "subsettedFeature" _
                        (by rw [e2]; exact refDefined_mono _ _ _ hsub h2)
                    rw [r1, r2]
                    simp
              · -- Specialization
                  simp only [isRelationshipAndIncomplete, htype0] at hinc
                  rw [if_neg (by decide), if_pos (show ("Specialization" == "Specialization") = true from rfl)] at hinc
                  have hAB := bool_not_eq_false _ hinc
                  obtain ⟨h1, h2⟩ := Bool.and_eq_true_iff.mp hAB
                  simp only [strictEndpointsResolve, hT]
                  rw [if_neg (by decide), if_pos (by decide)]
                  have e1 : el2.getKey "specific" = (J.obj fields0).getKey "specific" :=
                    hpres "specific" (by decide)
                  have e2 : el2.getKey "general" = (J.obj fields0).getKey "general" :=
                    hpres "general" (by decide)
                  have r1 : hasDefinedRef el2 "specific" _ = true :=
                    hasDefinedRef_of_refDefined el2 "specific" _
                      (by rw [e1]; exact refDefined_mono _ _ _ hsub h1)
                  have r2 : hasDefinedRef el2 "general" _ = true :=
                    hasDefinedRef_of_refDefined el2 "general" _
                      (by rw [e2]; exact refDefined_mono _ _ _ hsub h2)
                  rw [r1, r2]
                  simp
              · -- Subclassification
                  simp only [isRelationshipAndIncomplete, htype0] at hinc
                  rw [if_neg (by decide), if_neg (by decide), if_neg (by decide),
                    if_neg (by decide),
                    if_pos (show ("Subclassification" == "Subclassification") = true from rfl)] at hinc
                  have hAB := bool_not_eq_false _ hinc
                  obtain ⟨h1, h2⟩ := Bool.and_eq_true_iff.mp hAB
                  simp only [strictEndpointsResolve, hT]
                  rw [if_neg (by decide), if_pos (by decide)]
                  have e1 : el2.getKey "specific" = (J.obj fields0).getKey "specific" :=
                    hpres "specific" (by decide)
                  have e2 : el2.getKey "general" = (J.obj fields0).getKey "general" :=
                    hpres "general" (by decide)
                  have r1 : hasDefinedRef el2 "specific" _ = true :=
                    hasDefinedRef_of_refDefined el2 "specific" _
                      (by rw [e1]; exact refDefined_mono _ _ _ hsub h1)
                  have r2 : hasDefinedRef el2 "general" _ = true :=
                    hasDefinedRef_of_refDefined el2 "general" _
                      (by rw [e2]; exact refDefined_mono _ _ _ hsub h2)
                  rw [r1, r2]
                  simp
          | str s => simp [J.getKey] at htype0
          | num n => simp [J.getKey] at htype0
          | bool b => simp [J.getKey] at htype0
          | jnull => simp [J.getKey] at htype0
          | arr items => simp [J.getKey] at htype0
      | num n => rw [isStrictHeritage, hT] at hstrict; simp at hstrict
      | bool b => rw [isStrictHeritage, hT] at hstrict; simp at hstrict
      | jnull => rw [isStrictHeritage, hT] at hstrict; simp at hstrict
      | arr items => rw [isStrictHeritage, hT] at hstrict; simp at hstrict
      | obj f => rw [isStrictHeritage, hT] at hstrict; simp at hstrict

set_option maxRecDepth 10000 in
/-- C4 counterexample: when the iteration cap interrupts convergence, the
output can contain a strict heritage element with an unresolvable required
endpoint.  On `chainInput` the output keeps the Specialization `s1` whose
`specific` endpoint names the just-deleted `s2`. -/
theorem strict_completeness_fails_at_iteration_cap :
    ((cleanSysmlElements true chainInput).any (fun el =>
      isStrictHeritage el &&
      !(strictEndpointsResolve el
          (buildDefinedIds (cleanSysmlElements true chainInput))))) = true := by
  decide

/-- Witness for the amended C4 theorem at a concrete converged input. -/
theorem strict_endpoints_resolve_of_converged_witness :
    strictEndpointsResolve wS (buildDefinedIds (cleanSysmlElements true [wA, wB, wS])) = true :=
  strict_endpoints_resolve_of_converged true [wA, wB, wS] wS (by rfl)
    (List.mem_cons_of_mem _ (List.mem_cons_of_mem _ (List.mem_cons_self _ _)))
    (by rfl)

/-- C5 counterexample: an input with zero root-namespace candidates need not
fail with the no-root error — a kept untyped record (a thin external
reference) makes `_make_root_namespace_first` raise `KeyError` on the
missing `@type` first. -/
theorem noroot_claim_fails_on_untyped_record :
    isRootNamespaceCandidate thinUriRef = false ∧
    makeRootNamespaceFirst [thinUriRef] = Except.error RootError.keyError :=
  ⟨rfl, rfl⟩

/-- C5 (amended): on an input whose top-level records all carry a kind tag
and which has no root-namespace candidate, the reordering fails with the
distinct no-root error. -/
theorem noroot_error_when_no_candidates (els : List J)
    (htyped : ∀ el ∈ els, (el.getKey "@type").isSome = true)
    (hnocand : ∀ el ∈ els, isRootNamespaceCandidate el = false) :
    makeRootNamespaceFirst els = Except.error RootError.noRootNamespace := by
  have hscan : ∀ (l : List J), (∀ el ∈ l, (el.getKey "@type").isSome = true) →
      (∀ el ∈ l, isRootNamespaceCandidate el = false) →
      ∀ i, findRootIdx l none i = Except.ok none := by
    intro l
    induction l with
    | nil => intro _ _ i; rfl
    | cons el rest ih =>
        intro h1 h2 i
        have ht := h1 el (List.mem_cons_self _ _)
        have hc := h2 el (List.mem_cons_self _ _)
        have hrest := fun el2 h => h1 el2 (List.mem_cons_of_mem _ h)
        have hrestc := fun el2 h => h2 el2 (List.mem_cons_of_mem _ h)
        cases el with
        | obj fields =>
            cases hg : getField fields "@type" with
            | none => simp [J.getKey, hg] at ht
            | some tv =>
                simp only [findRootIdx, hg]
                have hcond : (optValEqStr (some tv) "Namespace" &&
                    !hasKey fields "owningRelationship") = false := by
                  simpa only [isRootNamespaceCandidate, hg] using hc
                rw [if_neg (by simp [hcond])]
                exact ih hrest hrestc (i + 1)
        | str s => simp [J.getKey] at ht
        | num n => simp [J.getKey] at ht
        | bool b => simp [J.getKey] at ht
        | jnull => simp [J.getKey] at ht
        | arr items => simp [J.getKey] at ht
  simp only [makeRootNamespaceFirst, hscan els htyped hnocand 0]

/-- Witness for the amended C5 theorem at the no-root input of the spec. -/
theorem noroot_error_when_no_candidates_witness :
    makeRootNamespaceFirst [elementOnly] = Except.error RootError.noRootNamespace :=
  noroot_error_when_no_candidates [elementOnly]
    (fun el h => by rw [List.mem_singleton.mp h]; rfl)
    (fun el h => by rw [List.mem_singleton.mp h]; rfl)

/-- An equality test against a string pins down the value. -/
theorem optValEqStr_eq (v : Option J) (s : String) (h : optValEqStr v s = true) :
    v = some (J.str s) := by
  cases v with
  | none => simp [optValEqStr] at h
  | some w =>
      cases w with
      | str t =>
          simp only [optValEqStr] at h
          rw [show t = s from by simpa using h]
      | num n => simp [optValEqStr] at h
      | bool b => simp [optValEqStr] at h
      | jnull => simp [optValEqStr] at h
      | arr items => simp [optValEqStr] at h
      | obj fields => simp [optValEqStr] at h

/-- After the candidate is recorded, a scan over typed non-candidates keeps
it. -/
theorem findRootIdx_after_found (j : Nat) :
    ∀ (l : List J), (∀ el ∈ l, (el.getKey "@type").isSome = true) →
      (∀ el ∈ l, isRootNamespaceCandidate el = false) →
      ∀ i, findRootIdx l (some j) i = Except.ok (some j) := by
  intro l
  induction l with
  | nil => intro _ _ i; rfl
  | cons el rest ih =>
      intro h1 h2 i
      have ht := h1 el (List.mem_cons_self _ _)
      have hc := h2 el (List.mem_cons_self _ _)
      have hrest := fun el2 h => h1 el2 (List.mem_cons_of_mem _ h)
      have hrestc := fun el2 h => h2 el2 (List.mem_cons_of_mem _ h)
      cases el with
      | obj fields =>
          cases hg : getField fields "@type" with
          | none => simp [J.getKey, hg] at ht
          | some tv =>
              simp only [findRootIdx, hg]
              have hcond : (optValEqStr (some tv) "Namespace" &&
                  !hasKey fields "owningRelationship") = false := by
                simpa only [isRootNamespaceCandidate, hg] using hc
              rw [if_neg (by simp [hcond])]
              exact ih hrest hrestc (i + 1)
      | str s => simp [J.getKey] at ht
      | num n => simp [J.getKey] at ht
      | bool b => simp [J.getKey] at ht
      | jnull => simp [J.getKey] at ht
      | arr items => simp [J.getKey] at ht

/-- The scan finds the unique candidate at its index. -/
theorem findRootIdx_locates (post : List J) (cand : J)
    (hcand : isRootNamespaceCandidate cand = true)
    (hpostT : ∀ el ∈ post, (el.getKey "@type").isSome = true)
    (hpostC : ∀ el ∈ post, isRootNamespaceCandidate el = false) :
    ∀ (pre : List J), (∀ el ∈ pre, (el.getKey "@type").isSome = true) →
      (∀ el ∈ pre, isRootNamespaceCandidate el = false) →
      ∀ i, findRootIdx (pre ++ cand :: post) none i =
        Except.ok (some (i + pre.length)) := by
  intro pre
  induction pre with
  | nil =>
      intro _ _ i
      cases cand with
      | obj fields =>
          have hns : getField fields "@type" = some (J.str "Namespace") := by
            have := hcand
            simp only [isRootNamespaceCandidate] at this
            exact optValEqStr_eq _ _ (Bool.and_eq_true_iff.mp this).1
          simp only [List.nil_append, findRootIdx, hns]
          rw [if_pos (by simpa only [isRootNamespaceCandidate, hns] using hcand)]
          simpa using findRootIdx_after_found i post hpostT hpostC (i + 1)
      | str s => simp [isRootNamespaceCandidate] at hcand
      | num n => simp [isRootNamespaceCandidate] at hcand
      | bool b => simp [isRootNamespaceCandidate] at hcand
      | jnull => simp [isRootNamespaceCandidate] at hcand
      | arr items => simp [isRootNamespaceCandidate] at hcand
  | cons a pre2 ih =>
      intro h1 h2 i
      have ht := h1 a (List.mem_cons_self _ _)
      have hc := h2 a (List.mem_cons_self _ _)
      have hrest := fun el2 h => h1 el2 (List.mem_cons_of_mem _ h)
      have hrestc := fun el2 h => h2 el2 (List.mem_cons_of_mem _ h)
      cases a with
      | obj fields =>
          cases hg : getField fields "@type" with
          | none => simp [J.getKey, hg] at ht
          | some tv =>
              simp only [List.cons_append, findRootIdx, hg]
              have hcond : (optValEqStr (some tv) "Namespace" &&
                  !hasKey fields "owningRelationship") = false := by
                simpa only [isRootNamespaceCandidate, hg] using hc
              rw [if_neg (by simp [hcond])]
              have harith : i + 1 + pre2.length = i + (pre2.length + 1) := by omega
              show findRootIdx (pre2 ++ cand :: post) none (i + 1) =
                Except.ok (some (i + (J.obj fields :: pre2).length))
              rw [ih hrest hrestc (i + 1), List.length_cons, harith]
      | str s => simp [J.getKey] at ht
      | num n => simp [J.getKey] at ht
      | bool b => simp [J.getKey] at ht
      | jnull => simp [J.getKey] at ht
      | arr items => simp [J.getKey] at ht

/-- Indexing just past a prefix reaches the inserted element. -/
theorem getElemOpt_append_cons (pre post : List J) (cand : J) :
    (pre ++ cand :: post)[pre.length]? = some cand := by
  induction pre with
  | nil => simp
  | cons a l ih => simpa using ih

/-- Erasing just past a prefix removes the inserted element. -/
theorem eraseIdx_append_cons (pre post : List J) (cand : J) :
    (pre ++ cand :: post).eraseIdx pre.length = pre ++ post := by
  induction pre with
  | nil => rfl
  | cons a l ih => simp [List.eraseIdx, ih]

/-- C6 counterexample: an input holding an unambiguous root-namespace
candidate plus one untyped record does not reorder — the scan raises
`KeyError` on the record without `@type` instead of returning the candidate
at index 0. -/
theorem root_first_claim_fails_on_untyped_record :
    isRootNamespaceCandidate nsPlain = true ∧
    makeRootNamespaceFirst [nsPlain, thinX] = Except.error RootError.keyError :=
  ⟨rfl, rfl⟩

/-- C6 (amended): when every top-level record carries a kind tag and the
input holds exactly one root-namespace candidate, the reordering returns
that candidate at index 0 with the other elements retained in their
original order. -/
theorem root_candidate_moved_to_front (pre post : List J) (cand : J)
    (htyped : ∀ el ∈ pre ++ post, (el.getKey "@type").isSome = true)
    (hnocand : ∀ el ∈ pre ++ post, isRootNamespaceCandidate el = false)
    (hcand : isRootNamespaceCandidate cand = true) :
    makeRootNamespaceFirst (pre ++ cand :: post) = Except.ok (cand :: (pre ++ post)) := by
  have hpreT := fun el h => htyped el (List.mem_append.mpr (Or.inl h))
  have hpreC := fun el h => hnocand el (List.mem_append.mpr (Or.inl h))
  have hpostT := fun el h => htyped el (List.mem_append.mpr (Or.inr h))
  have hpostC := fun el h => hnocand el (List.mem_append.mpr (Or.inr h))
  have hscan := findRootIdx_locates post cand hcand hpostT hpostC pre hpreT hpreC 0
  rw [Nat.zero_add] at hscan
  simp only [makeRootNamespaceFirst, hscan, moveToFront, getElemOpt_append_cons,
    eraseIdx_append_cons]

/-- Witness for the amended C6 theorem: a typed non-candidate followed by
the candidate gets reordered with the candidate first. -/
theorem root_candidate_moved_to_front_witness :
    makeRootNamespaceFirst [elementOnly, nsPlain] = Except.ok [nsPlain, elementOnly] :=
  root_candidate_moved_to_front [elementOnly] [] nsPlain
    (fun el h => by
      have h2 : el = elementOnly := by simpa using h
      rw [h2]; rfl)
    (fun el h => by
      have h2 : el = elementOnly := by simpa using h
      rw [h2]; rfl)
    rfl

/-- C7: a thin reference with an unresolvable id and a `@uri` marker is kept
by the pruner when external references are preserved and removed (with a
drop reported) when they are not. -/
theorem external_uri_ref_pruning (definedIds : List String) (fields : List (String × J))
    (href : isRefDict (J.obj fields) = true)
    (huri : hasUri (J.obj fields) = true)
    (hundef : (match getField fields "@id" with
               | some (J.str s) => definedIds.contains s
               | _ => false) = false) :
    dropThinF true definedIds (J.obj fields) = (some (J.obj fields), false) ∧
    dropThinF false definedIds (J.obj fields) = (none, true) := by
  have hnotype : getField fields "@type" = none := by
    cases hg : getField fields "@type" with
    | none => rfl
    | some tv =>
        exfalso
        simp only [isRefDict, Bool.and_eq_true, Bool.not_eq_true'] at href
        have h2 := href.2
        rw [hasKey, hg] at h2
        simp at h2
  constructor
  · simp only [dropThinF]
    rw [if_neg (by simp [optValEqStr, hnotype]),
      if_neg (by simp [typeInStrict, hnotype]), if_pos href,
      if_neg (by rw [hundef]; exact Bool.false_ne_true), if_pos (by simp [huri])]
  · simp only [dropThinF]
    rw [if_neg (by simp [optValEqStr, hnotype]),
      if_neg (by simp [typeInStrict, hnotype]), if_pos href,
      if_neg (by rw [hundef]; exact Bool.false_ne_true), if_neg (by simp)]

/-- Witness for C7 at a concrete external reference. -/
theorem external_uri_ref_pruning_witness :
    dropThinF true [] (J.obj [("@id", J.str "x"), ("@uri", J.str "u")]) =
      (some (J.obj [("@id", J.str "x"), ("@uri", J.str "u")]), false) ∧
    dropThinF false [] (J.obj [("@id", J.str "x"), ("@uri", J.str "u")]) = (none, true) :=
  external_uri_ref_pruning [] [("@id", J.str "x"), ("@uri", J.str "u")]
    (by decide) (by decide) (by decide)

/-- The driver executes at most `fuel` iterations. -/
theorem cleanLoop_count_le (p : Bool) :
    ∀ fuel els, (cleanLoop p fuel els).2.2 ≤ fuel := by
  intro fuel
  induction fuel with
  | zero => intro els; simp [cleanLoop]
  | succ n ih =>
      intro els
      simp only [cleanLoop]
      cases hstep : (onePass p els).2 with
      | true =>
          rw [if_pos (by simp [hstep])]
          simpa using Nat.succ_le_succ (ih (onePass p els).1)
      | false =>
          rw [if_neg (by simp [hstep])]
          simp
  
/-- When the driver exits with the changed flag still set, it used every
iteration the cap allows. -/
theorem cleanLoop_flag_count (p : Bool) :
    ∀ fuel els, (cleanLoop p fuel els).2.1 = true →
      (cleanLoop p fuel els).2.2 = fuel := by
  intro fuel
  induction fuel with
  | zero => intro els h; rfl
  | succ n ih =>
      intro els h
      simp only [cleanLoop] at h ⊢
      cases hstep : (onePass p els).2 with
      | true =>
          rw [if_pos (by simp [hstep])] at h ⊢
          simpa using ih (onePass p els).1 (by simpa using h)
      | false =>
          rw [if_neg (by simp [hstep])] at h
          simp at h

/-- The driver stops after one iteration when that iteration reports no
change. -/
theorem cleanLoop_one_step (p : Bool) (els : List J)
    (h : (onePass p els).2 = false) :
    ∀ fuel, cleanLoop p (fuel + 1) els = ((onePass p els).1, false, 1) := by
  intro fuel
  simp [cleanLoop, h]

/-- C8: the fixpoint driver always terminates: it executes at most 12
iterations, it stops after the first iteration that reports no change, and
it uses all 12 iterations exactly when it exits with the changed flag still
set (the cap case). -/
theorem fixpoint_driver_bounded (p : Bool) (els : List J) :
    (cleanLoop p MAX_ITERS els).2.2 ≤ 12 ∧
    ((onePass p els).2 = false →
      cleanLoop p MAX_ITERS els = ((onePass p els).1, false, 1)) ∧
    ((cleanLoop p MAX_ITERS els).2.1 = true →
      (cleanLoop p MAX_ITERS els).2.2 = 12) := by
  refine ⟨cleanLoop_count_le p MAX_ITERS els, ?_,
    fun h => cleanLoop_flag_count p MAX_ITERS els h⟩
  intro h
  exact cleanLoop_one_step p els h 11

/-- Witness for C8 at the empty input, whose first iteration already
reports no change. -/
theorem fixpoint_driver_bounded_witness :
    (cleanLoop true MAX_ITERS ([] : List J)).2.2 ≤ 12 ∧
    cleanLoop true MAX_ITERS ([] : List J) = ([], false, 1) :=
  ⟨(fixpoint_driver_bounded true []).1,
   (fixpoint_driver_bounded true []).2.1 (by rfl)⟩

mutual

/-- Stripping `@uri` fields leaves no `@uri` key anywhere. -/
theorem noUriKey_removeUri : ∀ v : J, hasUriKey (removeUriFields v) = false
  | .str s => rfl
  | .num n => rfl
  | .bool b => rfl
  | .jnull => rfl
  | .arr items => by
      simp only [removeUriFields, hasUriKey]
      exact noUriKey_removeUri_list items
  | .obj fields => by
      simp only [removeUriFields, hasUriKey]
      exact noUriKey_removeUri_obj fields

theorem noUriKey_removeUri_list : ∀ items : List J,
    hasUriKeyList (removeUriList items) = false
  | [] => rfl
  | v :: rest => by
      simp only [removeUriList, hasUriKeyList, Bool.or_eq_false_iff]
      exact ⟨noUriKey_removeUri v, noUriKey_removeUri_list rest⟩

theorem noUriKey_removeUri_obj : ∀ fields : List (String × J),
    hasUriKeyObj (removeUriObj fields) = false
  | [] => rfl
  | (k, v) :: rest => by
      simp only [removeUriObj]
      by_cases hk : (k == "@uri") = true
      · rw [if_pos hk]
        exact noUriKey_removeUri_obj rest
      · rw [if_neg hk]
        simp only [hasUriKeyObj, Bool.or_eq_false_iff]
        exact ⟨⟨by revert hk; cases k == "@uri" <;> simp, noUriKey_removeUri v⟩,
          noUriKey_removeUri_obj rest⟩

end

/-- Null normalisation on a cons dict is the field step followed by the
rest. -/
theorem replaceNoneObj_cons (k : String) (v : J) (rest : List (String × J)) :
    replaceNoneObj ((k, v) :: rest) = (k, replaceNoneField v) :: replaceNoneObj rest := by
  cases v <;> rfl

/-- The cleaned value of a dict field is never the scalar null itself. -/
theorem cleanStep_not_null (v : J) :
    isNullScalar (removeUriFields (replaceNoneField v)) = false := by
  cases v <;> rfl

/-- The per-field cleaning step keeps the no-null-field property. -/
theorem noNullField_step (v : J) :
    hasNullFieldValue (removeUriFields (replaceNoneWithEmpty v)) = false →
    hasNullFieldValue (removeUriFields (replaceNoneField v)) = false := by
  cases v with
  | jnull => intro hv; rfl
  | str s => exact fun hv => hv
  | num n => exact fun hv => hv
  | bool b => exact fun hv => hv
  | arr items => exact fun hv => hv
  | obj fields => exact fun hv => hv

/-- Cons step for the no-null-field property on values. -/
theorem noNullField_clean_list_step (v : J) (rest : List J)
    (hv : hasNullFieldValue (removeUriFields (replaceNoneWithEmpty v)) = false)
    (hrest : hasNullFieldValueList (removeUriList (replaceNoneList rest)) = false) :
    hasNullFieldValueList (removeUriList (replaceNoneList (v :: rest))) = false := by
  simp only [replaceNoneList, removeUriList, hasNullFieldValueList, Bool.or_eq_false_iff]
  exact ⟨hv, hrest⟩

/-- Cons step for the no-null-field property on dict fields. -/
theorem noNullField_clean_obj_step (k : String) (v : J) (rest : List (String × J))
    (hv : hasNullFieldValue (removeUriFields (replaceNoneWithEmpty v)) = false)
    (hrest : hasNullFieldValueObj (removeUriObj (replaceNoneObj rest)) = false) :
    hasNullFieldValueObj (removeUriObj (replaceNoneObj ((k, v) :: rest))) = false := by
  rw [replaceNoneObj_cons]
  simp only [removeUriObj]
  by_cases hk : (k == "@uri") = true
  · rw [if_pos hk]
    exact hrest
  · rw [if_neg hk]
    simp only [hasNullFieldValueObj, Bool.or_eq_false_iff]
    exact ⟨⟨cleanStep_not_null v, noNullField_step v hv⟩, hrest⟩

mutual

/-- After null normalisation and `@uri` stripping, no dict field holds the
scalar null directly. -/
theorem noNullField_clean : ∀ v : J,
    hasNullFieldValue (removeUriFields (replaceNoneWithEmpty v)) = false
  | .str s => rfl
  | .num n => rfl
  | .bool b => rfl
  | .jnull => rfl
  | .arr items => noNullField_clean_list items
  | .obj fields => noNullField_clean_obj fields

theorem noNullField_clean_list : ∀ items : List J,
    hasNullFieldValueList (removeUriList (replaceNoneList items)) = false
  | [] => rfl
  | v :: rest =>
      noNullField_clean_list_step v rest (noNullField_clean v) (noNullField_clean_list rest)

theorem noNullField_clean_obj : ∀ fields : List (String × J),
    hasNullFieldValueObj (removeUriObj (replaceNoneObj fields)) = false
  | [] => rfl
  | (k, v) :: rest =>
      noNullField_clean_obj_step k v rest (noNullField_clean v) (noNullField_clean_obj rest)

end

/-- Null normalisation acts pointwise on dict lookups. -/
theorem getField_replaceNoneObj (fields : List (String × J)) (k : String) :
    getField (replaceNoneObj fields) k = (getField fields k).map replaceNoneField := by
  induction fields with
  | nil => rfl
  | cons hd tl ih =>
      obtain ⟨k1, v1⟩ := hd
      rw [replaceNoneObj_cons]
      cases hk : (k1 == k) with
      | true => simp [getField, hk]
      | false => simp [getField, hk, ih]

/-- Stripping `@uri` fields acts pointwise on lookups of other keys. -/
theorem getField_removeUriObj (fields : List (String × J)) (k : String)
    (hk : (k == "@uri") = false) :
    getField (removeUriObj fields) k = (getField fields k).map removeUriFields := by
  induction fields with
  | nil => rfl
  | cons hd tl ih =>
      obtain ⟨k1, v1⟩ := hd
      simp only [removeUriObj]
      by_cases h1 : (k1 == "@uri") = true
      · rw [if_pos h1]
        have hne : (k1 == k) = false := by
          have e1 : k1 = "@uri" := by simpa using h1
          subst e1
          rw [beq_eq_false_iff_ne] at hk ⊢
          exact fun he => hk he.symm
        rw [show getField ((k1, v1) :: tl) k = getField tl k by
          simp only [getField]; rw [if_neg (by simp [hne])]]
        exact ih
      · rw [if_neg h1]
        simp only [getField]
        by_cases h2 : (k1 == k) = true
        · rw [if_pos h2, if_pos h2]
          rfl
        · rw [if_neg h2, if_neg h2]
          exact ih

/-- The payload-identity pair produced for a dict element: the payload is
the null-normalised, `@uri`-stripped element, and the identity carries the
cleaned id exactly when the element has one. -/
theorem wrapOne_obj_spec (fs : List (String × J)) :
    ∃ payload identity,
      wrapOne (J.obj fs) = J.obj [("payload", payload), ("identity", identity)] ∧
      payload = removeUriFields (replaceNoneWithEmpty (J.obj fs)) ∧
      hasUriKey payload = false ∧
      hasNullFieldValue payload = false ∧
      identity = (getField fs "@id").elim (J.obj [])
        (fun v => J.obj [("@id", removeUriFields (replaceNoneField v))]) := by
  have hid : getField (removeUriObj (replaceNoneObj fs)) "@id" =
      ((getField fs "@id").map replaceNoneField).map removeUriFields := by
    rw [getField_removeUriObj _ _ (by decide), getField_replaceNoneObj]
  have hUri : hasUriKey (J.obj (removeUriObj (replaceNoneObj fs))) = false := by
    simp only [hasUriKey]
    exact noUriKey_removeUri_obj (replaceNoneObj fs)
  have hNull : hasNullFieldValue (J.obj (removeUriObj (replaceNoneObj fs))) = false := by
    simp only [hasNullFieldValue]
    exact noNullField_clean_obj fs
  cases hg : getField fs "@id" with
  | none =>
      refine ⟨J.obj (removeUriObj (replaceNoneObj fs)), J.obj [], ?_, rfl, hUri, hNull, rfl⟩
      simp only [wrapOne]
      have hk : hasKey (removeUriObj (replaceNoneObj fs)) "@id" = false := by
        rw [hasKey, hid, hg]
        rfl
      show J.obj [("payload", J.obj (removeUriObj (replaceNoneObj fs))),
        ("identity", if hasKey (removeUriObj (replaceNoneObj fs)) "@id" = true then
          J.obj [("@id", (getField (removeUriObj (replaceNoneObj fs)) "@id").getD J.jnull)]
        else J.obj [])] = _
      rw [hk]
      simp
  | some v =>
      refine ⟨J.obj (removeUriObj (replaceNoneObj fs)),
        J.obj [("@id", removeUriFields (replaceNoneField v))], ?_, rfl, hUri, hNull, rfl⟩
      simp only [wrapOne]
      have hk : hasKey (removeUriObj (replaceNoneObj fs)) "@id" = true := by
        rw [hasKey, hid, hg]
        rfl
      show J.obj [("payload", J.obj (removeUriObj (replaceNoneObj fs))),
        ("identity", if hasKey (removeUriObj (replaceNoneObj fs)) "@id" = true then
          J.obj [("@id", (getField (removeUriObj (replaceNoneObj fs)) "@id").getD J.jnull)]
        else J.obj [])] = _
      rw [hk, hid, hg]
      simp

/-- C9 (amended): the payload wrapper maps the i-th dict element to the
i-th output pair (order preserved), whose payload is the element with all
`@uri` fields stripped recursively and with every null that is directly the
value of an object field normalised to the empty string (nulls occurring as
list items are left unchanged), and whose identity is the cleaned id when
the element carries one and empty otherwise. -/
theorem wrap_elements_as_payload_spec (els : List J)
    (hobjs : ∀ el ∈ els, ∃ fs, el = J.obj fs) :
    (wrapElementsAsPayload els).length = els.length ∧
    ∀ i (hi : i < els.length) (hw : i < (wrapElementsAsPayload els).length),
      ∃ payload identity,
        (wrapElementsAsPayload els).get ⟨i, hw⟩ =
          J.obj [("payload", payload), ("identity", identity)] ∧
        payload = removeUriFields (replaceNoneWithEmpty (els.get ⟨i, hi⟩)) ∧
        hasUriKey payload = false ∧
        hasNullFieldValue payload = false ∧
        identity = ((els.get ⟨i, hi⟩).getKey "@id").elim (J.obj [])
          (fun v => J.obj [("@id", removeUriFields (replaceNoneField v))]) := by
  refine ⟨by simp [wrapElementsAsPayload], ?_⟩
  intro i hi hw
  have hget : (wrapElementsAsPayload els).get ⟨i, hw⟩ = wrapOne (els.get ⟨i, hi⟩) := by
    simp [wrapElementsAsPayload, List.get_map]
  obtain ⟨fs, hfs⟩ := hobjs (els.get ⟨i, hi⟩) (List.get_mem els i hi)
  rw [hget, hfs]
  obtain ⟨payload, identity, h1, h2, h3, h4, h5⟩ := wrapOne_obj_spec fs
  exact ⟨payload, identity, h1, h2, h3, h4, by rw [h5]; rfl⟩

/-- Witness for the amended C9 theorem at a concrete element. -/
theorem wrap_elements_as_payload_spec_witness :
    (wrapElementsAsPayload [nullInListElement]).length = [nullInListElement].length ∧
    ∀ i (hi : i < [nullInListElement].length)
      (hw : i < (wrapElementsAsPayload [nullInListElement]).length),
      ∃ payload identity,
        (wrapElementsAsPayload [nullInListElement]).get ⟨i, hw⟩ =
          J.obj [("payload", payload), ("identity", identity)] ∧
        payload = removeUriFields (replaceNoneWithEmpty ([nullInListElement].get ⟨i, hi⟩)) ∧
        hasUriKey payload = false ∧
        hasNullFieldValue payload = false ∧
        identity = (([nullInListElement].get ⟨i, hi⟩).getKey "@id").elim (J.obj [])
          (fun v => J.obj [("@id", removeUriFields (replaceNoneField v))]) :=
  wrap_elements_as_payload_spec [nullInListElement]
    (fun el h => ⟨[("props", J.arr [J.jnull])], by rw [List.mem_singleton.mp h]; rfl⟩)

/-- C9 counterexample: a null that occurs as a list item (not as a dict
field value) survives the wrapping transform, so nulls are not normalised
to empty strings wherever they occur. -/
theorem wrap_keeps_null_inside_lists :
    wrapElementsAsPayload [nullInListElement] =
      [J.obj [("payload", J.obj [("props", J.arr [J.jnull])]), ("identity", J.obj [])]] ∧
    hasNullScalar (J.obj [("props", J.arr [J.jnull])]) = true :=
  ⟨rfl, rfl⟩

/-- A scan that returns normally visited a `@type` key on every record. -/
theorem findRootIdx_ok_all_typed :
    ∀ (l : List J) (found : Option Nat) (i : Nat) (r : Option Nat),
      findRootIdx l found i = Except.ok r →
      ∀ el ∈ l, (el.getKey "@type").isSome = true := by
  intro l
  induction l with
  | nil => intro found i r h el hmem; simp at hmem
  | cons el0 rest ih =>
      intro found i r h el hmem
      cases el0 with
      | obj fields =>
          cases hg : getField fields "@type" with
          | none =>
              simp only [findRootIdx, hg] at h
              exact absurd h (by simp)
          | some tv =>
              simp only [findRootIdx, hg] at h
              rcases List.mem_cons.mp hmem with heq | htail
              · subst heq
                simp [J.getKey, hg]
              · by_cases hc : (optValEqStr (some tv) "Namespace" &&
                    !hasKey fields "owningRelationship") = true
                · rw [if_pos hc] at h
                  cases found with
                  | some j => exact absurd h (by simp)
                  | none => exact ih _ _ _ h el htail
                · rw [if_neg hc] at h
                  exact ih _ _ _ h el htail
      | str s =>
          simp only [findRootIdx] at h
          exact absurd h (by simp)
      | num n =>
          simp only [findRootIdx] at h
          exact absurd h (by simp)
      | bool b =>
          simp only [findRootIdx] at h
          exact absurd h (by simp)
      | jnull =>
          simp only [findRootIdx] at h
          exact absurd h (by simp)
      | arr items =>
          simp only [findRootIdx] at h
          exact absurd h (by simp)

/-- When every record carries a kind tag, the scan can only fail on the
duplicate-candidate assertion. -/
theorem findRootIdx_typed_errors :
    ∀ (l : List J), (∀ el ∈ l, (el.getKey "@type").isSome = true) →
      ∀ (found : Option Nat) (i : Nat) (e : RootError),
        findRootIdx l found i = Except.error e → e = RootError.assertionError := by
  intro l
  induction l with
  | nil => intro _ found i e h; simp [findRootIdx] at h
  | cons el0 rest ih =>
      intro htyped found i e h
      have ht := htyped el0 (List.mem_cons_self _ _)
      have hrest := fun el2 h2 => htyped el2 (List.mem_cons_of_mem _ h2)
      cases el0 with
      | obj fields =>
          cases hg : getField fields "@type" with
          | none => simp [J.getKey, hg] at ht
          | some tv =>
              simp only [findRootIdx, hg] at h
              by_cases hc : (optValEqStr (some tv) "Namespace" &&
                  !hasKey fields "owningRelationship") = true
              · rw [if_pos hc] at h
                cases found with
                | some j =>
                    have : RootError.assertionError = e := by
                      simpa using h
                    exact this.symm
                | none => exact ih hrest _ _ _ h
              · rw [if_neg hc] at h
                exact ih hrest _ _ _ h
      | str s => simp [J.getKey] at ht
      | num n => simp [J.getKey] at ht
      | bool b => simp [J.getKey] at ht
      | jnull => simp [J.getKey] at ht
      | arr items => simp [J.getKey] at ht

/-- C10: the reordering step returns normally only when every top-level
record carries a kind tag; a sanitized output can violate this — an
unresolvable thin reference with a `@uri` marker is kept at top level under
preserve-external-references, and `_make_root_namespace_first` then raises
`KeyError` on the missing `@type` rather than the no-root error; and under
the precondition that all records carry `@type`, the `KeyError` (and the
non-dict `TypeError`) branches are unreachable. -/
theorem reorder_requires_type_tags :
    (∀ (els : List J) (out : List J), makeRootNamespaceFirst els = Except.ok out →
        ∀ el ∈ els, (el.getKey "@type").isSome = true) ∧
    (cleanSysmlElements true [thinUriRef] = [thinUriRef] ∧
     makeRootNamespaceFirst [thinUriRef] = Except.error RootError.keyError) ∧
    (∀ els : List J, (∀ el ∈ els, (el.getKey "@type").isSome = true) →
        makeRootNamespaceFirst els ≠ Except.error RootError.keyError ∧
        makeRootNamespaceFirst els ≠ Except.error RootError.typeError) := by
  refine ⟨?_, ⟨rfl, rfl⟩, ?_⟩
  · intro els out h el hmem
    cases hf : findRootIdx els none 0 with
    | error e =>
        rw [makeRootNamespaceFirst, hf] at h
        exact absurd h (by simp)
    | ok r =>
        cases r with
        | none =>
            rw [makeRootNamespaceFirst, hf] at h
            exact absurd h (by simp)
        | some idx => exact findRootIdx_ok_all_typed els none 0 (some idx) hf el hmem
  · intro els htyped
    constructor
    · intro h
      cases hf : findRootIdx els none 0 with
      | error e =>
          rw [makeRootNamespaceFirst, hf] at h
          have he : e = RootError.keyError := by simpa using h
          have := findRootIdx_typed_errors els htyped none 0 e hf
          rw [he] at this
          exact absurd this (by simp)
      | ok r =>
          cases r with
          | none =>
              rw [makeRootNamespaceFirst, hf] at h
              simp at h
          | some idx =>
              rw [makeRootNamespaceFirst, hf] at h
              exact absurd h (by simp)
    · intro h
      cases hf : findRootIdx els none 0 with
      | error e =>
          rw [makeRootNamespaceFirst, hf] at h
          have he : e = RootError.typeError := by simpa using h
          have := findRootIdx_typed_errors els htyped none 0 e hf
          rw [he] at this
          exact absurd this (by simp)
      | ok r =>
          cases r with
          | none =>
              rw [makeRootNamespaceFirst, hf] at h
              simp at h
          | some idx =>
              rw [makeRootNamespaceFirst, hf] at h
              exact absurd h (by simp)

/-- Witness for C10 applying its typed-precondition part at a concrete
input. -/
theorem reorder_requires_type_tags_witness :
    makeRootNamespaceFirst [elementOnly] ≠ Except.error RootError.keyError ∧
    makeRootNamespaceFirst [elementOnly] ≠ Except.error RootError.typeError :=
  reorder_requires_type_tags.2.2 [elementOnly]
    (fun el h => by rw [List.mem_singleton.mp h]; rfl)
